import Mathlib

/-!
# KOCL eCryptfs read/write extent engines — shallow embedding

This file embeds `src/gaes/ecryptfs_4.7_kocl/read_write.c` in Lean:

* `ecryptfs_write`      — the sequential write extent engine (`ecryptfs_write` in C),
* `ecryptfs_write2`     — the batched write variant (`ecryptfs_write2` in C),
* `ecryptfs_read2`      — the read extent engine (`ecryptfs_read2` in C),
* `ecryptfs_write_lower_page_segment` — the plaintext persist helper.

The machine state is a record of total functions on flat byte addresses:
the page cache (`cache`), the lower (backend) file (`lower`), the in-memory
inode size (`isize`), plus page bookkeeping for lock/refcount discipline
(`locked`, `refs`) and a combined allocated/up-to-date bit (`present`).
Byte values are plain `Nat` tokens: the engines only move bytes around, so
no modular arithmetic is needed.

External collaborators that live outside this repository's single source
file (page cache primitives, the crypto engine, the size-metadata store)
are modelled from the spec's interface section; each such definition says
so in its doc comment.  The crypto engine is parametrised by bytewise
`enc`/`dec` maps; round-trip theorems assume `dec ∘ enc = id`.
Results of fallible external calls that the C code stores in `rc`
(the batched group encrypt, the size-metadata write) are passed in as
`Int` parameters so that error propagation can be stated.

Loops are written with explicit fuel (structural recursion): every wrapper
passes fuel that provably dominates the iteration count, so the fuel-out
branch is never reached on the inputs the theorems talk about, and the
kernel can evaluate every definition on concrete inputs.
-/

namespace KOCL

/-- PAGE_SHIFT from the kernel configuration the source is built against. -/
def PAGE_SHIFT : Nat := 12

/-- PAGE_SIZE = 1 <<< PAGE_SHIFT = 4096. -/
def PAGE_SIZE : Nat := 4096

/-- `-EINTR`, the cancellation error the sequential write returns. -/
def EINTR_RC : Int := -4

/-- The crypt_stat flags the engines branch on: `ECRYPTFS_ENCRYPTED` and
`ECRYPTFS_VIEW_AS_ENCRYPTED`. -/
structure CryptStat where
  encrypted : Bool
  viewAsEncrypted : Bool

/-- Machine state: in-memory inode size, page-cache contents (flat byte
addresses; page `i` owns addresses `[i*PAGE_SIZE, (i+1)*PAGE_SIZE)`),
per-page allocated/up-to-date bit, lower-file contents, per-page lock bit
and per-page extra reference count held by in-flight calls. -/
structure St where
  isize : Nat
  cache : Nat → Nat
  present : Nat → Bool
  lower : Nat → Nat
  locked : Nat → Bool
  refs : Nat → Nat

/-- `memset(dst + start, 0, len)` on a flat byte function. -/
def memset0 (m : Nat → Nat) (start len : Nat) : Nat → Nat :=
  fun p => if start ≤ p ∧ p < start + len then 0 else m p

/-- `memcpy(dst + dstStart, src + srcStart, len)` on flat byte functions. -/
def copyRange (dst : Nat → Nat) (dstStart : Nat) (src : Nat → Nat)
    (srcStart len : Nat) : Nat → Nat :=
  fun p => if dstStart ≤ p ∧ p < dstStart + len then src (srcStart + (p - dstStart)) else dst p

/-- The decrypted view a page fill produces.  Modelled from the spec:
`ecryptfs_readpage` is not in this repository's source; per the spec's Read
Extent Engine, decryption is skipped when the mode is plaintext or
pass-through-view, otherwise the lower bytes are decrypted. -/
def lowerView (crypt : CryptStat) (dec : Nat → Nat) (lower : Nat → Nat) (p : Nat) : Nat :=
  if crypt.encrypted && !crypt.viewAsEncrypted then dec (lower p) else lower p

/-- Modelled from the spec: `PageCache.acquireAndFillLocked`, the behaviour of
`ecryptfs_get_locked_page` (not in this source file): lock the page, and if it
is not yet present/up-to-date, fill it with the decrypted view of the lower
file.  Takes one extra reference. -/
def get_locked_page (crypt : CryptStat) (dec : Nat → Nat) (st : St) (idx : Nat) : St :=
  let st1 :=
    if st.present idx then st
    else
      { st with
        cache := fun p =>
          if idx * PAGE_SIZE ≤ p ∧ p < (idx + 1) * PAGE_SIZE then
            lowerView crypt dec st.lower p
          else st.cache p,
        present := fun j => if j = idx then true else st.present j }
  { st1 with
    locked := fun j => if j = idx then true else st1.locked j,
    refs := fun j => if j = idx then st1.refs j + 1 else st1.refs j }

/-- Modelled from the spec: `PageCache.acquireLocked` (allocate+lock,
zero-initialized on first allocation, no fill) — the behaviour of
`grab_cache_page` / `grab_cache_page_write_begin` with flags 0.
Takes one extra reference. -/
def grab_cache_page (st : St) (idx : Nat) : St :=
  let st1 :=
    if st.present idx then st
    else
      { st with
        cache := fun p =>
          if idx * PAGE_SIZE ≤ p ∧ p < (idx + 1) * PAGE_SIZE then 0 else st.cache p,
        present := fun j => if j = idx then true else st.present j }
  { st1 with
    locked := fun j => if j = idx then true else st1.locked j,
    refs := fun j => if j = idx then st1.refs j + 1 else st1.refs j }

/-- Modelled from the spec: `a_ops->readpage` — fill the page with the
decrypted view of the lower file and unlock it when the fill completes. -/
def readpage (crypt : CryptStat) (dec : Nat → Nat) (st : St) (idx : Nat) : St :=
  { st with
    cache := fun p =>
      if idx * PAGE_SIZE ≤ p ∧ p < (idx + 1) * PAGE_SIZE then
        lowerView crypt dec st.lower p
      else st.cache p,
    present := fun j => if j = idx then true else st.present j,
    locked := fun j => if j = idx then false else st.locked j }

/-- `put_page`: drop the extra reference taken at acquisition. -/
def putPage (st : St) (idx : Nat) : St :=
  { st with refs := fun j => if j = idx then st.refs j - 1 else st.refs j }

/-- Modelled from the spec: `CryptoEngine.encryptPage` — the behaviour of
`ecryptfs_encrypt_page` (not in this source file): encrypt the page-cache
page and persist the ciphertext to the lower file at the page's extent. -/
def encrypt_page (enc : Nat → Nat) (st : St) (idx : Nat) : St :=
  { st with
    lower := fun p =>
      if idx * PAGE_SIZE ≤ p ∧ p < (idx + 1) * PAGE_SIZE then enc (st.cache p)
      else st.lower p }

/-- Modelled from the spec: `CryptoEngine.decryptPages` — the behaviour of
`ecryptfs_decrypt_pages(pgs, nr)` (not in this source file): decrypt the
whole batch (pages `0..nr-1` in the read path) in place from the lower
file. -/
def decrypt_pages (dec : Nat → Nat) (st : St) (nr : Nat) : St :=
  { st with
    cache := fun p => if p < nr * PAGE_SIZE then dec (st.lower p) else st.cache p }

/-- Modelled from the spec: `CryptoEngine.encryptPages` — the behaviour of
`ecryptfs_encrypt_pages2(pgs, n)` (not in this source file): one group call
encrypting the first `n` accumulated pages; its reported status `rcEnc` is a
parameter, and on failure the lower file is left unchanged. -/
def encrypt_pages2 (enc : Nat → Nat) (rcEnc : Int) (st : St) (pgs : List Nat) (n : Nat) : St :=
  if rcEnc = 0 then (pgs.take n).foldl (fun s idx => encrypt_page enc s idx) st else st

/-- `ecryptfs_write_lower_page_segment`: maps the page (`virt` points at the
page START) and writes `size` bytes from `virt` to the lower file at offset
`idx*PAGE_SIZE + offset_in_page`.  Note the source bytes are taken from the
beginning of the page, not from `offset_in_page`, exactly as in the C. -/
def ecryptfs_write_lower_page_segment (st : St) (idx offsetInPage size : Nat) : St :=
  { st with
    lower := copyRange st.lower (idx * PAGE_SIZE + offsetInPage) st.cache
      (idx * PAGE_SIZE) size }

/-- The byte count of the extent step at `pos` for a write request
`(offset, size)`: `PAGE_SIZE - start_offset_in_page`, capped by the total
remaining bytes, and, on a hole-filling step (`pos < offset`), further
capped by the remaining zeros up to `offset`. -/
def stepBytes (offset size pos : Nat) : Nat :=
  let startOff := pos % PAGE_SIZE
  let nb0 := PAGE_SIZE - startOff
  let nb1 := if nb0 > (offset + size) - pos then (offset + size) - pos else nb0
  if pos < offset then (if nb1 > offset - pos then offset - pos else nb1) else nb1

/-- One iteration of the `ecryptfs_write` while-loop body (after the signal
check): translate `pos`, cap the step, acquire the page, zero-fill and/or
copy, mark up-to-date, unlock, commit (per-page encrypt when encrypted,
lower page-segment write of `data_offset` bytes otherwise) and release.
Returns the new state, the new `pos` and the new `data_offset`.
All external calls succeed in this model, so no `rc` is produced. -/
def writeStepSeq (crypt : CryptStat) (enc dec : Nat → Nat) (data : Nat → Nat)
    (offset size : Nat) (pos dataOff : Nat) (st : St) : St × Nat × Nat :=
  let idx := pos / PAGE_SIZE
  let startOff := pos % PAGE_SIZE
  let numBytes := stepBytes offset size pos
  let st1 := get_locked_page crypt dec st idx
  let cache2 :=
    if pos < offset ∨ startOff = 0 then
      memset0 st1.cache (idx * PAGE_SIZE + startOff) (PAGE_SIZE - startOff)
    else st1.cache
  let cache3 := if offset ≤ pos then copyRange cache2 pos data dataOff numBytes else cache2
  let dataOff2 := if offset ≤ pos then dataOff + numBytes else dataOff
  let st4 :=
    { st1 with
      cache := cache3,
      present := fun j => if j = idx then true else st1.present j,
      locked := fun j => if j = idx then false else st1.locked j }
  let st5 :=
    if crypt.encrypted then encrypt_page enc st4 idx
    else ecryptfs_write_lower_page_segment st4 idx startOff dataOff2
  (putPage st5 idx, pos + numBytes, dataOff2)

/-- The `ecryptfs_write` while-loop: checks the external cancellation signal
at the start of each iteration (`fatal_signal_pending`), then runs
`writeStepSeq`, until `pos` reaches `offset + size`.  Returns the final
state, the return code, and the final `pos`.  `fuel` is structural fuel;
the wrapper passes enough that the fuel-out branch is unreachable. -/
def writeLoopSeq (crypt : CryptStat) (enc dec : Nat → Nat) (signal : Nat → Bool)
    (data : Nat → Nat) (offset size : Nat) :
    Nat → Nat → Nat → Nat → St → St × Int × Nat
  | 0, _, pos, _, st => (st, 0, pos)
  | fuel + 1, iter, pos, dataOff, st =>
    if pos < offset + size then
      if signal iter then (st, EINTR_RC, pos)
      else
        let r := writeStepSeq crypt enc dec data offset size pos dataOff st
        writeLoopSeq crypt enc dec signal data offset size fuel (iter + 1) r.2.1 r.2.2 r.1
    else (st, 0, pos)

/-- `ecryptfs_write`: the sequential write extent engine.  `signal i` is the
value `fatal_signal_pending(current)` would report at loop iteration `i`;
`mdRc` is the status `ecryptfs_write_inode_size_to_metadata` would report
(that helper persists size metadata and is outside this source file,
modelled from the spec as affecting only the return code). -/
def ecryptfs_write (crypt : CryptStat) (enc dec : Nat → Nat) (signal : Nat → Bool)
    (mdRc : Int) (st0 : St) (data : Nat → Nat) (offset size : Nat) : St × Int :=
  let fileSize := st0.isize
  let pos0 := if offset > fileSize then fileSize else offset
  let r := writeLoopSeq crypt enc dec signal data offset size (offset + size) 0 pos0 0 st0
  let st := r.1
  let rc := r.2.1
  let posF := r.2.2
  if posF > fileSize then
    let st1 := { st with isize := posF }
    if crypt.encrypted then
      (st1, if mdRc ≠ 0 then (if rc = 0 then mdRc else rc) else rc)
    else (st1, rc)
  else (st, rc)

/-- One iteration of the `ecryptfs_write2` while-loop body.  Same extent
arithmetic as the sequential variant, but: no cancellation check exists in
this loop; the page comes from `grab_cache_page_write_begin` (no fill); and
the commit policy differs — an encrypted page is appended to the call's
batch `pgs` without being released, a plaintext page is persisted via the
lower page-segment write and released at once.  Returns the new state, the
new batch, the new `pos` and the new `data_offset`. -/
def writeStepBat (crypt : CryptStat) (data : Nat → Nat) (offset size : Nat)
    (pos dataOff : Nat) (st : St) (pgs : List Nat) : St × List Nat × Nat × Nat :=
  let idx := pos / PAGE_SIZE
  let startOff := pos % PAGE_SIZE
  let numBytes := stepBytes offset size pos
  let st1 := grab_cache_page st idx
  let cache2 :=
    if pos < offset ∨ startOff = 0 then
      memset0 st1.cache (idx * PAGE_SIZE + startOff) (PAGE_SIZE - startOff)
    else st1.cache
  let cache3 := if offset ≤ pos then copyRange cache2 pos data dataOff numBytes else cache2
  let dataOff2 := if offset ≤ pos then dataOff + numBytes else dataOff
  let st4 :=
    { st1 with
      cache := cache3,
      present := fun j => if j = idx then true else st1.present j,
      locked := fun j => if j = idx then false else st1.locked j }
  if crypt.encrypted then (st4, pgs ++ [idx], pos + numBytes, dataOff2)
  else
    let st5 := ecryptfs_write_lower_page_segment st4 idx startOff dataOff2
    (putPage st5 idx, pgs, pos + numBytes, dataOff2)

/-- The `ecryptfs_write2` while-loop.  Unlike the sequential loop it never
consults the cancellation signal.  Returns the final state, the accumulated
page batch and the final `pos`. -/
def writeLoopBat (crypt : CryptStat) (data : Nat → Nat) (offset size : Nat) :
    Nat → Nat → Nat → St → List Nat → St × List Nat × Nat
  | 0, pos, _, st, pgs => (st, pgs, pos)
  | fuel + 1, pos, dataOff, st, pgs =>
    if pos < offset + size then
      let r := writeStepBat crypt data offset size pos dataOff st pgs
      writeLoopBat crypt data offset size fuel r.2.2.1 r.2.2.2 r.1 r.2.1
    else (st, pgs, pos)

/-- `ecryptfs_write2`: the batched write variant.  `signal` is the external
cancellation condition — the parameter is accepted and never consulted,
because the C loop contains no `fatal_signal_pending` check.  `rcEnc` is
the status the deferred `ecryptfs_encrypt_pages2` group call reports and
`mdRc` the status of the size-metadata write.  After the walk, when the
file is encrypted, the batch is group-encrypted, the first `nrpgs` batch
entries are released and `rc` becomes `rcEnc`; then, when the write extends
the file, the in-memory size is set to `offset + size` and (encrypted only)
`rc` is overwritten by the metadata-write status. -/
def ecryptfs_write2 (crypt : CryptStat) (enc : Nat → Nat) (rcEnc mdRc : Int)
    (signal : Nat → Bool) (st0 : St) (data : Nat → Nat) (offset size : Nat) : St × Int :=
  let fileSize := st0.isize
  let nrpgs := size / PAGE_SIZE + (if size % PAGE_SIZE ≠ 0 then 1 else 0)
  let pos0 := if offset > fileSize then fileSize else offset
  let r := writeLoopBat crypt data offset size (offset + size) pos0 0 st0 []
  let st := r.1
  let pgs := r.2.1
  let rcSt :=
    if crypt.encrypted then
      let sa := encrypt_pages2 enc rcEnc st pgs nrpgs
      ((pgs.take nrpgs).foldl putPage sa, rcEnc)
    else (st, 0)
  if offset + size > fileSize then
    let st3 := { rcSt.1 with isize := offset + size }
    if crypt.encrypted then (st3, mdRc) else (st3, rcSt.2)
  else rcSt

/-- The acquisition step of the `ecryptfs_read2` for-loop at batch position
`idx`: `grab_cache_page`, and in the no-decryption case an immediate
`readpage` fill (which unlocks the page when it completes). -/
def read2Grab (nodec : Bool) (crypt : CryptStat) (dec : Nat → Nat) (st : St) (idx : Nat) : St :=
  let st1 := grab_cache_page st idx
  if nodec then readpage crypt dec st1 idx else st1

/-- The `ecryptfs_read2` copy-out while-loop: walk `[pos, stop)` in
page-bounded steps; the step at batch position `j` copies its bytes out of
cache page `pgs[j]` — the batch entry counted from the start of the call,
not the cache page at index `pos / PAGE_SIZE`.  Accessing `pgs` beyond its
length is out of bounds in the C (undefined); the model totalises it with
`List.getD _ _ 0` and no theorem relies on that branch.  Each step marks
the page up to date (the fill `rc` is 0 in this model), unlocks and
releases it.  Returns the final state, the destination buffer and the
`written` count. -/
def read2CopyLoop (stop : Nat) (pgs : List Nat) :
    Nat → St → Nat → Nat → List Nat → Nat → St × List Nat × Nat
  | 0, st, _, _, acc, w => (st, acc, w)
  | fuel + 1, st, pos, j, acc, w =>
    if pos < stop then
      let startOff := pos % PAGE_SIZE
      let nb0 := PAGE_SIZE - startOff
      let numBytes := if nb0 > stop - pos then stop - pos else nb0
      let pageNo := pgs.getD j 0
      let slice := (List.range numBytes).map fun t => st.cache (pageNo * PAGE_SIZE + startOff + t)
      let st1 :=
        { st with
          present := fun i => if i = pageNo then true else st.present i,
          locked := fun i => if i = pageNo then false else st.locked i }
      read2CopyLoop stop pgs fuel (putPage st1 pageNo) (pos + numBytes) (j + 1)
        (acc ++ slice) (w + numBytes)
    else (st, acc, w)

/-- `ecryptfs_read2`: the read extent engine.  Clamps `size` to the file
size, computes `nr_pages = ceil(size / PAGE_SIZE)`, acquires cache pages
`0 .. nr_pages - 1` (filling each via `readpage` when no decryption is
needed), then when decryption is needed decrypts the whole batch in place;
if `offset` is at or beyond end of file it returns 0 immediately — note the
C takes `goto out` there without unlocking, releasing or freeing anything;
otherwise it copies the requested range out.  Returns the final state, the
bytes written to the destination buffer, and the `written` count the call
returns. -/
def ecryptfs_read2 (crypt : CryptStat) (dec : Nat → Nat) (st0 : St)
    (offset size0 : Nat) : St × List Nat × Nat :=
  let fileSize := st0.isize
  let size := if size0 > fileSize then fileSize else size0
  let nrPages := (size + PAGE_SIZE - 1) / PAGE_SIZE
  let nodec := !crypt.encrypted || crypt.viewAsEncrypted
  let pgs := List.range nrPages
  let st1 := pgs.foldl (fun s j => read2Grab nodec crypt dec s j) st0
  let st2 := if nodec then st1 else decrypt_pages dec st1 nrPages
  if fileSize ≤ offset then (st2, [], 0)
  else read2CopyLoop (offset + size) pgs size st2 offset 0 [] 0

/-- The always-false cancellation signal. -/
def noSignal : Nat → Bool := fun _ => false

/-- The always-raised cancellation signal. -/
def sigAlways : Nat → Bool := fun _ => true

/-- An encrypted crypt_stat (`ECRYPTFS_ENCRYPTED` set, no pass-through view). -/
def cryptEnc : CryptStat := ⟨true, false⟩

/-- A plaintext crypt_stat (no flags set). -/
def cryptPlain : CryptStat := ⟨false, false⟩

/-- The empty file: size 0, zeroed cache and lower file, no pages present,
locked or referenced. -/
def emptySt : St := ⟨0, fun _ => 0, fun _ => false, fun _ => 0, fun _ => false, fun _ => 0⟩

/-! ## Arithmetic facts about the extent step -/

theorem PAGE_SIZE_pos : 0 < PAGE_SIZE := by decide

theorem stepBytes_pos (offset size pos : Nat) (h : pos < offset + size) :
    0 < stepBytes offset size pos := by
  simp only [stepBytes, PAGE_SIZE]
  split_ifs <;> omega

theorem stepBytes_le_remaining (offset size pos : Nat) :
    stepBytes offset size pos ≤ (offset + size) - pos := by
  simp only [stepBytes, PAGE_SIZE]
  split_ifs <;> omega

theorem stepBytes_hole (offset size pos : Nat) (h : pos < offset) :
    pos + stepBytes offset size pos ≤ offset := by
  simp only [stepBytes, PAGE_SIZE]
  split_ifs <;> omega

theorem stepBytes_le_page (offset size pos : Nat) :
    pos + stepBytes offset size pos ≤ (pos / PAGE_SIZE + 1) * PAGE_SIZE := by
  simp only [stepBytes, PAGE_SIZE]
  split_ifs <;> omega

theorem pos_page_decomp (pos : Nat) :
    (pos / PAGE_SIZE) * PAGE_SIZE + pos % PAGE_SIZE = pos := by
  simp only [PAGE_SIZE]
  omega

theorem stepBytes_full_of_aligned (offset size pos : Nat) (ha : pos % PAGE_SIZE = 0)
    (hge : offset ≤ pos) (hlt : pos + PAGE_SIZE ≤ offset + size) :
    stepBytes offset size pos = PAGE_SIZE := by
  simp only [stepBytes, PAGE_SIZE] at ha hlt ⊢
  split_ifs <;> omega

theorem stepBytes_last_of_aligned (offset size pos : Nat) (ha : pos % PAGE_SIZE = 0)
    (hge : offset ≤ pos) (hlt : offset + size < pos + PAGE_SIZE) :
    stepBytes offset size pos = (offset + size) - pos := by
  simp only [stepBytes, PAGE_SIZE] at ha hlt ⊢
  split_ifs <;> omega

/-! ## Pointwise characterizations of the state primitives -/

theorem get_locked_page_isize (crypt : CryptStat) (dec : Nat → Nat) (st : St) (idx : Nat) :
    (get_locked_page crypt dec st idx).isize = st.isize := by
  by_cases h : st.present idx <;> simp [get_locked_page, h]

theorem get_locked_page_lower (crypt : CryptStat) (dec : Nat → Nat) (st : St) (idx : Nat) :
    (get_locked_page crypt dec st idx).lower = st.lower := by
  by_cases h : st.present idx <;> simp [get_locked_page, h]

theorem get_locked_page_present (crypt : CryptStat) (dec : Nat → Nat) (st : St) (idx j : Nat) :
    (get_locked_page crypt dec st idx).present j = if j = idx then true else st.present j := by
  by_cases h : st.present idx
  · simp only [get_locked_page, h, if_true]
    split <;> simp_all
  · simp [get_locked_page, h]

theorem get_locked_page_locked (crypt : CryptStat) (dec : Nat → Nat) (st : St) (idx j : Nat) :
    (get_locked_page crypt dec st idx).locked j = if j = idx then true else st.locked j := by
  by_cases h : st.present idx <;> simp [get_locked_page, h]

theorem get_locked_page_refs (crypt : CryptStat) (dec : Nat → Nat) (st : St) (idx j : Nat) :
    (get_locked_page crypt dec st idx).refs j = if j = idx then st.refs j + 1 else st.refs j := by
  by_cases h : st.present idx <;> simp [get_locked_page, h]

theorem get_locked_page_cache (crypt : CryptStat) (dec : Nat → Nat) (st : St) (idx p : Nat) :
    (get_locked_page crypt dec st idx).cache p =
      if st.present idx = false ∧ idx * PAGE_SIZE ≤ p ∧ p < (idx + 1) * PAGE_SIZE then
        lowerView crypt dec st.lower p
      else st.cache p := by
  by_cases h : st.present idx <;> simp [get_locked_page, h]

theorem grab_cache_page_isize (st : St) (idx : Nat) :
    (grab_cache_page st idx).isize = st.isize := by
  by_cases h : st.present idx <;> simp [grab_cache_page, h]

theorem grab_cache_page_lower (st : St) (idx : Nat) :
    (grab_cache_page st idx).lower = st.lower := by
  by_cases h : st.present idx <;> simp [grab_cache_page, h]

theorem grab_cache_page_present (st : St) (idx j : Nat) :
    (grab_cache_page st idx).present j = if j = idx then true else st.present j := by
  by_cases h : st.present idx
  · simp only [grab_cache_page, h, if_true]
    split <;> simp_all
  · simp [grab_cache_page, h]

theorem grab_cache_page_locked (st : St) (idx j : Nat) :
    (grab_cache_page st idx).locked j = if j = idx then true else st.locked j := by
  by_cases h : st.present idx <;> simp [grab_cache_page, h]

theorem grab_cache_page_refs (st : St) (idx j : Nat) :
    (grab_cache_page st idx).refs j = if j = idx then st.refs j + 1 else st.refs j := by
  by_cases h : st.present idx <;> simp [grab_cache_page, h]

theorem grab_cache_page_cache (st : St) (idx p : Nat) :
    (grab_cache_page st idx).cache p =
      if st.present idx = false ∧ idx * PAGE_SIZE ≤ p ∧ p < (idx + 1) * PAGE_SIZE then 0
      else st.cache p := by
  by_cases h : st.present idx <;> simp [grab_cache_page, h]

theorem readpage_lower (crypt : CryptStat) (dec : Nat → Nat) (st : St) (idx : Nat) :
    (readpage crypt dec st idx).lower = st.lower := rfl

theorem readpage_isize (crypt : CryptStat) (dec : Nat → Nat) (st : St) (idx : Nat) :
    (readpage crypt dec st idx).isize = st.isize := rfl

theorem putPage_refs (st : St) (idx j : Nat) :
    (putPage st idx).refs j = if j = idx then st.refs j - 1 else st.refs j := rfl

theorem encrypt_page_cache (enc : Nat → Nat) (st : St) (idx : Nat) :
    (encrypt_page enc st idx).cache = st.cache := rfl

theorem encrypt_page_isize (enc : Nat → Nat) (st : St) (idx : Nat) :
    (encrypt_page enc st idx).isize = st.isize := rfl

theorem encrypt_page_lower (enc : Nat → Nat) (st : St) (idx p : Nat) :
    (encrypt_page enc st idx).lower p =
      if idx * PAGE_SIZE ≤ p ∧ p < (idx + 1) * PAGE_SIZE then enc (st.cache p)
      else st.lower p := rfl

theorem write_lower_page_segment_cache (st : St) (idx offsetInPage size : Nat) :
    (ecryptfs_write_lower_page_segment st idx offsetInPage size).cache = st.cache := rfl

theorem write_lower_page_segment_isize (st : St) (idx offsetInPage size : Nat) :
    (ecryptfs_write_lower_page_segment st idx offsetInPage size).isize = st.isize := rfl

theorem write_lower_page_segment_lower (st : St) (idx offsetInPage size p : Nat) :
    (ecryptfs_write_lower_page_segment st idx offsetInPage size).lower p =
      if idx * PAGE_SIZE + offsetInPage ≤ p ∧ p < idx * PAGE_SIZE + offsetInPage + size then
        st.cache (idx * PAGE_SIZE + (p - (idx * PAGE_SIZE + offsetInPage)))
      else st.lower p := rfl

theorem decrypt_pages_cache (dec : Nat → Nat) (st : St) (nr p : Nat) :
    (decrypt_pages dec st nr).cache p =
      if p < nr * PAGE_SIZE then dec (st.lower p) else st.cache p := rfl

theorem decrypt_pages_isize (dec : Nat → Nat) (st : St) (nr : Nat) :
    (decrypt_pages dec st nr).isize = st.isize := rfl

theorem decrypt_pages_lower (dec : Nat → Nat) (st : St) (nr : Nat) :
    (decrypt_pages dec st nr).lower = st.lower := rfl

theorem ite_app {c : Prop} [Decidable c] (f g : Nat → Nat) (p : Nat) :
    (if c then f else g) p = if c then f p else g p := by
  split <;> rfl

/-! ## Characterizations of one sequential write step -/

theorem writeStepSeq_pos (crypt : CryptStat) (enc dec data : Nat → Nat)
    (offset size pos dataOff : Nat) (st : St) :
    (writeStepSeq crypt enc dec data offset size pos dataOff st).2.1 =
      pos + stepBytes offset size pos := by
  simp only [writeStepSeq]

theorem writeStepSeq_dataOff (crypt : CryptStat) (enc dec data : Nat → Nat)
    (offset size pos dataOff : Nat) (st : St) :
    (writeStepSeq crypt enc dec data offset size pos dataOff st).2.2 =
      if offset ≤ pos then dataOff + stepBytes offset size pos else dataOff := by
  simp only [writeStepSeq]

theorem writeStepSeq_isize (crypt : CryptStat) (enc dec data : Nat → Nat)
    (offset size pos dataOff : Nat) (st : St) :
    (writeStepSeq crypt enc dec data offset size pos dataOff st).1.isize = st.isize := by
  simp only [writeStepSeq]
  by_cases hc : crypt.encrypted <;>
    simp [hc, putPage, encrypt_page, ecryptfs_write_lower_page_segment, get_locked_page_isize]

theorem writeStepSeq_present (crypt : CryptStat) (enc dec data : Nat → Nat)
    (offset size pos dataOff : Nat) (st : St) (j : Nat) :
    (writeStepSeq crypt enc dec data offset size pos dataOff st).1.present j =
      if j = pos / PAGE_SIZE then true else st.present j := by
  simp only [writeStepSeq]
  by_cases hc : crypt.encrypted <;>
    simp [hc, putPage, encrypt_page, ecryptfs_write_lower_page_segment,
      get_locked_page_present] <;> split <;> simp

theorem writeStepSeq_locked (crypt : CryptStat) (enc dec data : Nat → Nat)
    (offset size pos dataOff : Nat) (st : St) (j : Nat) :
    (writeStepSeq crypt enc dec data offset size pos dataOff st).1.locked j =
      if j = pos / PAGE_SIZE then false else st.locked j := by
  simp only [writeStepSeq]
  by_cases hc : crypt.encrypted <;>
    simp [hc, putPage, encrypt_page, ecryptfs_write_lower_page_segment,
      get_locked_page_locked] <;> by_cases hj : j = pos / PAGE_SIZE <;> simp [hj]

theorem writeStepSeq_refs (crypt : CryptStat) (enc dec data : Nat → Nat)
    (offset size pos dataOff : Nat) (st : St) (j : Nat) :
    (writeStepSeq crypt enc dec data offset size pos dataOff st).1.refs j = st.refs j := by
  simp only [writeStepSeq]
  by_cases hc : crypt.encrypted <;>
    simp [hc, putPage, encrypt_page, ecryptfs_write_lower_page_segment,
      get_locked_page_refs] <;> split <;> simp

/-- Pointwise description of the page cache after one sequential write step:
the copied slice of the request buffer wins, then the zero fill (which runs
to the end of the page), then the acquisition fill of a page that was not
present, then the previous contents. -/
theorem writeStepSeq_cache (crypt : CryptStat) (enc dec data : Nat → Nat)
    (offset size pos dataOff : Nat) (st : St) (p : Nat) :
    (writeStepSeq crypt enc dec data offset size pos dataOff st).1.cache p =
      if offset ≤ pos ∧ pos ≤ p ∧ p < pos + stepBytes offset size pos then
        data (dataOff + (p - pos))
      else if (pos < offset ∨ pos % PAGE_SIZE = 0) ∧ pos ≤ p ∧
          p < (pos / PAGE_SIZE + 1) * PAGE_SIZE then 0
      else if st.present (pos / PAGE_SIZE) = false ∧ (pos / PAGE_SIZE) * PAGE_SIZE ≤ p ∧
          p < (pos / PAGE_SIZE + 1) * PAGE_SIZE then
        lowerView crypt dec st.lower p
      else st.cache p := by
  have hdm := pos_page_decomp pos
  have hmlt : pos % PAGE_SIZE < PAGE_SIZE := Nat.mod_lt _ PAGE_SIZE_pos
  have hcache :
      (writeStepSeq crypt enc dec data offset size pos dataOff st).1.cache = fun p =>
        (if offset ≤ pos then
            copyRange
              (if pos < offset ∨ pos % PAGE_SIZE = 0 then
                memset0 (get_locked_page crypt dec st (pos / PAGE_SIZE)).cache
                  ((pos / PAGE_SIZE) * PAGE_SIZE + pos % PAGE_SIZE)
                  (PAGE_SIZE - pos % PAGE_SIZE)
              else (get_locked_page crypt dec st (pos / PAGE_SIZE)).cache)
              pos data dataOff (stepBytes offset size pos)
          else
            if pos < offset ∨ pos % PAGE_SIZE = 0 then
              memset0 (get_locked_page crypt dec st (pos / PAGE_SIZE)).cache
                ((pos / PAGE_SIZE) * PAGE_SIZE + pos % PAGE_SIZE)
                (PAGE_SIZE - pos % PAGE_SIZE)
            else (get_locked_page crypt dec st (pos / PAGE_SIZE)).cache) p := by
    simp only [writeStepSeq]
    by_cases hc : crypt.encrypted <;>
      simp [hc, putPage, encrypt_page, ecryptfs_write_lower_page_segment] <;>
      split <;> simp
  rw [hcache]
  simp only [ite_app, memset0, copyRange, get_locked_page_cache]
  simp only [PAGE_SIZE] at hdm hmlt ⊢
  have hsr := stepBytes_le_remaining offset size pos
  have hsp := stepBytes_le_page offset size pos
  have hsh : pos < offset → pos + stepBytes offset size pos ≤ offset := stepBytes_hole offset size pos
  simp only [PAGE_SIZE] at hsr hsp
  split_ifs <;> first | rfl | omega

/-- After one sequential write step on an encrypted file, the lower file
holds the encryption of the final page-cache contents over the step's page
extent and is unchanged elsewhere. -/
theorem writeStepSeq_lower_enc (crypt : CryptStat) (enc dec data : Nat → Nat)
    (offset size pos dataOff : Nat) (st : St) (henc : crypt.encrypted = true) (p : Nat) :
    (writeStepSeq crypt enc dec data offset size pos dataOff st).1.lower p =
      if (pos / PAGE_SIZE) * PAGE_SIZE ≤ p ∧ p < (pos / PAGE_SIZE + 1) * PAGE_SIZE then
        enc ((writeStepSeq crypt enc dec data offset size pos dataOff st).1.cache p)
      else st.lower p := by
  conv_lhs => simp only [writeStepSeq]
  conv_rhs => simp only [writeStepSeq]
  simp [henc, putPage, encrypt_page, get_locked_page_lower]

/-- After one sequential write step on a plaintext file, the lower file
received `data_offset` bytes taken from the START of the page, placed at
the step's in-file position, and is unchanged elsewhere. -/
theorem writeStepSeq_lower_plain (crypt : CryptStat) (enc dec data : Nat → Nat)
    (offset size pos dataOff : Nat) (st : St) (henc : crypt.encrypted = false) (p : Nat) :
    (writeStepSeq crypt enc dec data offset size pos dataOff st).1.lower p =
      if pos ≤ p ∧
          p < pos + (if offset ≤ pos then dataOff + stepBytes offset size pos else dataOff) then
        (writeStepSeq crypt enc dec data offset size pos dataOff st).1.cache
          ((pos / PAGE_SIZE) * PAGE_SIZE + (p - pos))
      else st.lower p := by
  have hdm := pos_page_decomp pos
  conv_lhs => simp only [writeStepSeq]
  conv_rhs => simp only [writeStepSeq]
  simp [henc, putPage, ecryptfs_write_lower_page_segment, copyRange,
    get_locked_page_lower, hdm]

/-! ## Characterizations of one batched write step -/

theorem writeStepBat_pos (crypt : CryptStat) (data : Nat → Nat)
    (offset size pos dataOff : Nat) (st : St) (pgs : List Nat) :
    (writeStepBat crypt data offset size pos dataOff st pgs).2.2.1 =
      pos + stepBytes offset size pos := by
  simp only [writeStepBat]
  by_cases hc : crypt.encrypted <;> simp [hc]

theorem writeStepBat_dataOff (crypt : CryptStat) (data : Nat → Nat)
    (offset size pos dataOff : Nat) (st : St) (pgs : List Nat) :
    (writeStepBat crypt data offset size pos dataOff st pgs).2.2.2 =
      if offset ≤ pos then dataOff + stepBytes offset size pos else dataOff := by
  simp only [writeStepBat]
  by_cases hc : crypt.encrypted <;> simp [hc]

theorem writeStepBat_isize (crypt : CryptStat) (data : Nat → Nat)
    (offset size pos dataOff : Nat) (st : St) (pgs : List Nat) :
    (writeStepBat crypt data offset size pos dataOff st pgs).1.isize = st.isize := by
  simp only [writeStepBat]
  by_cases hc : crypt.encrypted <;>
    simp [hc, putPage, ecryptfs_write_lower_page_segment, grab_cache_page_isize]

theorem writeStepBat_pgs_enc (crypt : CryptStat) (data : Nat → Nat)
    (offset size pos dataOff : Nat) (st : St) (pgs : List Nat)
    (henc : crypt.encrypted = true) :
    (writeStepBat crypt data offset size pos dataOff st pgs).2.1 =
      pgs ++ [pos / PAGE_SIZE] := by
  simp [writeStepBat, henc]

theorem writeStepBat_locked_enc (crypt : CryptStat) (data : Nat → Nat)
    (offset size pos dataOff : Nat) (st : St) (pgs : List Nat)
    (henc : crypt.encrypted = true) (j : Nat) :
    (writeStepBat crypt data offset size pos dataOff st pgs).1.locked j =
      if j = pos / PAGE_SIZE then false else st.locked j := by
  simp [writeStepBat, henc, grab_cache_page_locked]
  by_cases hj : j = pos / PAGE_SIZE <;> simp [hj]

theorem writeStepBat_refs_enc (crypt : CryptStat) (data : Nat → Nat)
    (offset size pos dataOff : Nat) (st : St) (pgs : List Nat)
    (henc : crypt.encrypted = true) (j : Nat) :
    (writeStepBat crypt data offset size pos dataOff st pgs).1.refs j =
      if j = pos / PAGE_SIZE then st.refs j + 1 else st.refs j := by
  simp [writeStepBat, henc, grab_cache_page_refs]

/-! ## The sequential write loop: master invariant lemma -/

/-- Master lemma for `writeLoopSeq` with no cancellation raised: the loop
succeeds, the final position is exactly `offset + size`, the in-memory size
is untouched, the hole `[P0, offset)` holds zeros in the cache (and, for an
encrypted file, decrypts to zeros from the lower file), the request range
`[offset, offset + size)` holds the caller's bytes (and, encrypted,
round-trips through the lower file), and nothing below the page of the
starting position is touched.  The hypotheses carry the same facts for the
portion already processed (`[·, pos)`), so the lemma can recurse. -/
theorem div_eq_of_in_page (pos p : Nat) (h1 : (pos / PAGE_SIZE) * PAGE_SIZE ≤ p)
    (h2 : p < (pos / PAGE_SIZE + 1) * PAGE_SIZE) : p / PAGE_SIZE = pos / PAGE_SIZE := by
  simp only [PAGE_SIZE] at h1 h2 ⊢
  omega

/-- Master lemma for `writeLoopSeq` with no cancellation raised: the loop
succeeds, the final position is exactly `offset + size`, the in-memory size
is untouched, the hole `[P0, offset)` holds zeros in the cache (and, for an
encrypted file, decrypts to zeros from the lower file), the request range
`[offset, offset + size)` holds the caller's bytes (and, encrypted,
round-trips through the lower file), and nothing below the page of the
starting position is touched.  The hypotheses carry the same facts for the
portion already processed (`[·, pos)`), so the lemma can recurse. -/
theorem writeLoopSeq_master (crypt : CryptStat) (enc dec data : Nat → Nat)
    (offset size P0 : Nat) (hinv : ∀ b, dec (enc b) = b) (hP0 : P0 ≤ offset) :
    ∀ fuel iter pos dataOff st,
      (offset + size) - pos ≤ fuel →
      pos ≤ offset + size →
      dataOff = pos - offset →
      (∀ p, P0 ≤ p → p < offset → p < pos →
        st.cache p = 0 ∧ (crypt.encrypted = true → dec (st.lower p) = 0)) →
      (∀ p, offset ≤ p → p < pos →
        st.cache p = data (p - offset) ∧
          (crypt.encrypted = true → dec (st.lower p) = data (p - offset))) →
      (∀ p, P0 ≤ p → p < pos → st.present (p / PAGE_SIZE) = true) →
      (writeLoopSeq crypt enc dec noSignal data offset size fuel iter pos dataOff st).2.1 = 0 ∧
      (writeLoopSeq crypt enc dec noSignal data offset size fuel iter pos dataOff st).2.2 =
        offset + size ∧
      (writeLoopSeq crypt enc dec noSignal data offset size fuel iter pos dataOff st).1.isize =
        st.isize ∧
      (∀ p, P0 ≤ p → p < offset →
        (writeLoopSeq crypt enc dec noSignal data offset size fuel iter pos dataOff st).1.cache p
            = 0 ∧
          (crypt.encrypted = true →
            dec ((writeLoopSeq crypt enc dec noSignal data offset size fuel iter pos dataOff
              st).1.lower p) = 0)) ∧
      (∀ p, offset ≤ p → p < offset + size →
        (writeLoopSeq crypt enc dec noSignal data offset size fuel iter pos dataOff st).1.cache p
            = data (p - offset) ∧
          (crypt.encrypted = true →
            dec ((writeLoopSeq crypt enc dec noSignal data offset size fuel iter pos dataOff
              st).1.lower p) = data (p - offset))) ∧
      (∀ p, p < (pos / PAGE_SIZE) * PAGE_SIZE →
        (writeLoopSeq crypt enc dec noSignal data offset size fuel iter pos dataOff st).1.cache p
            = st.cache p ∧
          (writeLoopSeq crypt enc dec noSignal data offset size fuel iter pos dataOff st).1.lower p
            = st.lower p) := by
  intro fuel
  induction fuel with
  | zero =>
    intro iter pos dataOff st hfuel hle hdo hgap hdata hpres
    have hpos : pos = offset + size := by omega
    subst hpos
    refine ⟨rfl, rfl, rfl, ?_, ?_, ?_⟩
    · intro p h1 h2
      exact hgap p h1 h2 (by omega)
    · intro p h1 h2
      exact hdata p h1 h2
    · intro p _
      exact ⟨rfl, rfl⟩
  | succ fuel ih =>
    intro iter pos dataOff st hfuel hle hdo hgap hdata hpres
    by_cases hlt : pos < offset + size
    · have hstep :
          writeLoopSeq crypt enc dec noSignal data offset size (fuel + 1) iter pos dataOff st =
            writeLoopSeq crypt enc dec noSignal data offset size fuel (iter + 1)
              (writeStepSeq crypt enc dec data offset size pos dataOff st).2.1
              (writeStepSeq crypt enc dec data offset size pos dataOff st).2.2
              (writeStepSeq crypt enc dec data offset size pos dataOff st).1 := by
        simp [writeLoopSeq, hlt, noSignal]
      rw [hstep]
      have hn1 : 0 < stepBytes offset size pos := stepBytes_pos offset size pos hlt
      have hnr : stepBytes offset size pos ≤ (offset + size) - pos :=
        stepBytes_le_remaining offset size pos
      have hnpage := stepBytes_le_page offset size pos
      have hnhole : pos < offset → pos + stepBytes offset size pos ≤ offset :=
        stepBytes_hole offset size pos
      have hdm := pos_page_decomp pos
      have hmlt : pos % PAGE_SIZE < PAGE_SIZE := Nat.mod_lt _ PAGE_SIZE_pos
      have hAB : (pos / PAGE_SIZE + 1) * PAGE_SIZE =
          (pos / PAGE_SIZE) * PAGE_SIZE + PAGE_SIZE := by ring
      rw [writeStepSeq_pos, writeStepSeq_dataOff]
      set n := stepBytes offset size pos with hn
      set st' := (writeStepSeq crypt enc dec data offset size pos dataOff st).1 with hst'
      have hcache' : ∀ p, st'.cache p =
          (if offset ≤ pos ∧ pos ≤ p ∧ p < pos + n then data (dataOff + (p - pos))
          else if (pos < offset ∨ pos % PAGE_SIZE = 0) ∧ pos ≤ p ∧
              p < (pos / PAGE_SIZE + 1) * PAGE_SIZE then 0
          else if st.present (pos / PAGE_SIZE) = false ∧ (pos / PAGE_SIZE) * PAGE_SIZE ≤ p ∧
              p < (pos / PAGE_SIZE + 1) * PAGE_SIZE then
            lowerView crypt dec st.lower p
          else st.cache p) := fun p =>
        writeStepSeq_cache crypt enc dec data offset size pos dataOff st p
      have hpres' : ∀ j, st'.present j =
          (if j = pos / PAGE_SIZE then true else st.present j) := fun j =>
        writeStepSeq_present crypt enc dec data offset size pos dataOff st j
      -- processed positions keep their cache bytes
      have hkeep : ∀ p, P0 ≤ p → p < pos → st'.cache p = st.cache p := by
        intro p h0 hp
        rw [hcache']
        split_ifs with h1 h2 h3
        · omega
        · omega
        · exfalso
          have hpp := hpres p h0 hp
          rw [div_eq_of_in_page pos p h3.2.1 h3.2.2] at hpp
          simp [hpp] at h3
        · rfl
      -- below the current page nothing changes
      have hkeeplow : ∀ p, p < (pos / PAGE_SIZE) * PAGE_SIZE →
          st'.cache p = st.cache p ∧ st'.lower p = st.lower p := by
        intro p hp
        constructor
        · rw [hcache']
          split_ifs with h1 h2 h3 <;> first | rfl | omega
        · by_cases hc : crypt.encrypted
          · rw [hst', writeStepSeq_lower_enc crypt enc dec data offset size pos dataOff st hc]
            rw [if_neg (by omega)]
          · rw [hst', writeStepSeq_lower_plain crypt enc dec data offset size pos dataOff st
              (by simpa using hc)]
            rw [if_neg (by omega)]
      -- on the current page, the lower file now decrypts to the final cache bytes
      have hlow' : crypt.encrypted = true → ∀ p,
          (pos / PAGE_SIZE) * PAGE_SIZE ≤ p → p < (pos / PAGE_SIZE + 1) * PAGE_SIZE →
          dec (st'.lower p) = st'.cache p := by
        intro hc p hp1 hp2
        rw [hst', writeStepSeq_lower_enc crypt enc dec data offset size pos dataOff st hc,
          if_pos ⟨hp1, hp2⟩, hinv]
      have hlowkeep : crypt.encrypted = true → ∀ p,
          p < (pos / PAGE_SIZE) * PAGE_SIZE ∨ (pos / PAGE_SIZE + 1) * PAGE_SIZE ≤ p →
          st'.lower p = st.lower p := by
        intro hc p hp
        rw [hst', writeStepSeq_lower_enc crypt enc dec data offset size pos dataOff st hc,
          if_neg (by omega)]
      have hlowplain : crypt.encrypted = false → ∀ p, p < pos → st'.lower p = st.lower p := by
        intro hc p hp
        rw [hst', writeStepSeq_lower_plain crypt enc dec data offset size pos dataOff st hc,
          if_neg (by omega)]
      -- cache bytes written by this step
      have hnewgap : ∀ p, pos ≤ p → p < pos + n → p < offset → st'.cache p = 0 := by
        intro p hp1 hp2 hp3
        rw [hcache']
        rw [if_neg (by omega), if_pos ?_]
        exact ⟨Or.inl (by omega), hp1, by omega⟩
      have hnewdata : ∀ p, pos ≤ p → p < pos + n → offset ≤ p →
          st'.cache p = data (p - offset) := by
        intro p hp1 hp2 hp3
        have hop : offset ≤ pos := by
          by_contra hcon
          have := hnhole (by omega)
          omega
        rw [hcache', if_pos ⟨hop, hp1, hp2⟩]
        congr 1
        omega
      have happly := ih (iter + 1) (pos + n)
        (if offset ≤ pos then dataOff + n else dataOff) st'
        (by omega) (by omega)
        (by
          split_ifs with h
          · omega
          · have := hnhole (by omega)
            omega)
        ?_ ?_ ?_
      · -- combine the recursive conclusion with the step facts
        obtain ⟨hrc, hposF, hisz, hgapO, hdataO, hframeO⟩ := happly
        refine ⟨hrc, hposF, ?_, hgapO, hdataO, ?_⟩
        · rw [hisz, hst', writeStepSeq_isize]
        · intro p hp
          have hple : (pos / PAGE_SIZE) * PAGE_SIZE ≤ ((pos + n) / PAGE_SIZE) * PAGE_SIZE :=
            Nat.mul_le_mul_right _ (Nat.div_le_div_right (by omega))
          obtain ⟨hfc, hfl⟩ := hframeO p (by omega)
          obtain ⟨hkc, hkl⟩ := hkeeplow p hp
          exact ⟨hfc.trans hkc, hfl.trans hkl⟩
      · -- hole invariant for the stepped state
        intro p h0 hpo hpn
        by_cases hp : p < pos
        · refine ⟨(hkeep p h0 hp).trans (hgap p h0 hpo hp).1, ?_⟩
          intro hc
          by_cases hpage : (pos / PAGE_SIZE) * PAGE_SIZE ≤ p
          · rw [hlow' hc p hpage (by omega), (hkeep p h0 hp).trans (hgap p h0 hpo hp).1]
          · rw [hlowkeep hc p (Or.inl (by omega))]
            exact (hgap p h0 hpo hp).2 hc
        · have hz := hnewgap p (by omega) (by omega) hpo
          refine ⟨hz, ?_⟩
          intro hc
          rw [hlow' hc p (by omega) (by omega), hz]
      · -- data invariant for the stepped state
        intro p hpo hpn
        by_cases hp : p < pos
        · have hks : st'.cache p = data (p - offset) :=
            (hkeep p (by omega) hp).trans (hdata p hpo hp).1
          refine ⟨hks, ?_⟩
          intro hc
          by_cases hpage : (pos / PAGE_SIZE) * PAGE_SIZE ≤ p
          · rw [hlow' hc p hpage (by omega), hks]
          · rw [hlowkeep hc p (Or.inl (by omega))]
            exact (hdata p hpo hp).2 hc
        · have hd := hnewdata p (by omega) (by omega) hpo
          refine ⟨hd, ?_⟩
          intro hc
          rw [hlow' hc p (by omega) (by omega), hd]
      · -- present invariant for the stepped state
        intro p h0 hpn
        rw [hpres']
        by_cases hp : p < pos
        · by_cases hj : p / PAGE_SIZE = pos / PAGE_SIZE <;> simp [hj, hpres p h0 hp]
        · have : p / PAGE_SIZE = pos / PAGE_SIZE :=
            div_eq_of_in_page pos p (by omega) (by omega)
          simp [this]
    · have hpos : pos = offset + size := by omega
      subst hpos
      have hexit :
          writeLoopSeq crypt enc dec noSignal data offset size (fuel + 1) iter
            (offset + size) dataOff st = (st, 0, offset + size) := by
        simp [writeLoopSeq]
      rw [hexit]
      refine ⟨rfl, rfl, rfl, ?_, ?_, ?_⟩
      · intro p h1 h2
        exact hgap p h1 h2 (by omega)
      · intro p h1 h2
        exact hdata p h1 h2
      · intro p _
        exact ⟨rfl, rfl⟩

/-! ## The read copy-out loop -/

theorem list_range_map_add (a b : Nat) (f : Nat → Nat) :
    (List.range (a + b)).map f =
      (List.range a).map f ++ (List.range b).map (fun k => f (a + k)) := by
  rw [List.range_add]
  simp [Function.comp]

theorem list_range_getD (nr j : Nat) (h : j < nr) : (List.range nr).getD j 0 = j := by
  rw [List.getD_eq_getElem _ _ (by simpa using h)]
  simp

theorem read2CopyLoop_exit (stop : Nat) (pgs : List Nat) (fuel : Nat) (st : St)
    (pos j : Nat) (acc : List Nat) (w : Nat) (h : stop ≤ pos) :
    read2CopyLoop stop pgs fuel st pos j acc w = (st, acc, w) := by
  cases fuel <;> simp [read2CopyLoop, Nat.not_lt.2 h]

theorem read2CopyLoop_step (stop : Nat) (pgs : List Nat) (fuel : Nat) (st : St)
    (pos j : Nat) (acc : List Nat) (w : Nat) (h : pos < stop) :
    read2CopyLoop stop pgs (fuel + 1) st pos j acc w =
      read2CopyLoop stop pgs fuel
        (putPage
          { st with
            present := fun i => if i = pgs.getD j 0 then true else st.present i,
            locked := fun i => if i = pgs.getD j 0 then false else st.locked i }
          (pgs.getD j 0))
        (pos +
          (if PAGE_SIZE - pos % PAGE_SIZE > stop - pos then stop - pos
            else PAGE_SIZE - pos % PAGE_SIZE))
        (j + 1)
        (acc ++
          (List.range
              (if PAGE_SIZE - pos % PAGE_SIZE > stop - pos then stop - pos
                else PAGE_SIZE - pos % PAGE_SIZE)).map
            fun t => st.cache ((pgs.getD j 0) * PAGE_SIZE + pos % PAGE_SIZE + t))
        (w +
          (if PAGE_SIZE - pos % PAGE_SIZE > stop - pos then stop - pos
            else PAGE_SIZE - pos % PAGE_SIZE)) := by
  simp [read2CopyLoop, h]

/-- The copy-out loop transfers exactly `stop - pos` bytes: `written` grows
by that amount and so does the destination buffer. -/
theorem read2CopyLoop_count (stop : Nat) (pgs : List Nat) :
    ∀ fuel pos j st acc w, stop - pos ≤ fuel →
      (read2CopyLoop stop pgs fuel st pos j acc w).2.2 = w + (stop - pos) ∧
      (read2CopyLoop stop pgs fuel st pos j acc w).2.1.length =
        acc.length + (stop - pos) := by
  intro fuel
  induction fuel with
  | zero =>
    intro pos j st acc w hf
    constructor <;> simp [read2CopyLoop] <;> omega
  | succ fuel ih =>
    intro pos j st acc w hf
    by_cases hlt : pos < stop
    · have hmlt : pos % PAGE_SIZE < PAGE_SIZE := Nat.mod_lt _ PAGE_SIZE_pos
      rw [read2CopyLoop_step stop pgs fuel st pos j acc w hlt]
      set num :=
        if PAGE_SIZE - pos % PAGE_SIZE > stop - pos then stop - pos
        else PAGE_SIZE - pos % PAGE_SIZE with hnum
      have hnum1 : 0 < num := by
        rw [hnum]
        split_ifs <;> omega
      have hnum2 : num ≤ stop - pos := by
        rw [hnum]
        split_ifs <;> omega
      obtain ⟨h1, h2⟩ := ih (pos + num) (j + 1) _ _ _ (by omega)
      refine ⟨?_, ?_⟩
      · rw [h1]
        omega
      · rw [h2]
        simp
        omega
    · rw [read2CopyLoop_exit stop pgs _ st pos j acc w (by omega)]
      constructor <;> simp <;> omega

/-- Content of the destination buffer produced by the copy-out loop when the
batch is `range nr` and every step stays inside the batch: the bytes come
from consecutive cache addresses starting at `pos - base`, where
`base = PAGE_SIZE * (offset / PAGE_SIZE)` is the page base of the original
request offset — i.e. the pages are indexed from the start of the call, not
by absolute position. -/
theorem read2CopyLoop_content (stop nr base : Nat) :
    ∀ fuel pos j st acc w,
      stop - pos ≤ fuel →
      base ≤ pos →
      j * PAGE_SIZE + pos % PAGE_SIZE = pos - base →
      stop ≤ base + nr * PAGE_SIZE →
      (read2CopyLoop stop (List.range nr) fuel st pos j acc w).2.1 =
        acc ++ (List.range (stop - pos)).map fun k => st.cache ((pos - base) + k) := by
  intro fuel
  induction fuel with
  | zero =>
    intro pos j st acc w hf hb hj hnr
    have : stop - pos = 0 := by omega
    simp [read2CopyLoop, this]
  | succ fuel ih =>
    intro pos j st acc w hf hb hj hnr
    by_cases hlt : pos < stop
    · have hmlt : pos % PAGE_SIZE < PAGE_SIZE := Nat.mod_lt _ PAGE_SIZE_pos
      have hjlt : j < nr := by
        simp only [PAGE_SIZE] at hj hnr hmlt
        omega
      rw [read2CopyLoop_step stop (List.range nr) fuel st pos j acc w hlt]
      rw [list_range_getD nr j hjlt]
      set num :=
        if PAGE_SIZE - pos % PAGE_SIZE > stop - pos then stop - pos
        else PAGE_SIZE - pos % PAGE_SIZE with hnum
      have hnum1 : 0 < num := by
        rw [hnum]
        split_ifs <;> omega
      have hnum2 : num ≤ stop - pos := by
        rw [hnum]
        split_ifs <;> omega
      have hnumB : stop - pos ≤ num ∨ num = PAGE_SIZE - pos % PAGE_SIZE := by
        rw [hnum]
        split_ifs with hcase
        · exact Or.inl (Nat.le_refl _)
        · exact Or.inr rfl
      clear_value num
      have hslice :
          ((List.range num).map fun t => st.cache (j * PAGE_SIZE + pos % PAGE_SIZE + t)) =
            (List.range num).map fun t => st.cache ((pos - base) + t) := by
        apply List.map_congr_left
        intro t _
        rw [hj]
      by_cases hend : stop ≤ pos + num
      · have hnum3 : num = stop - pos := by omega
        rw [read2CopyLoop_exit _ _ _ _ _ _ _ _ hend]
        rw [hnum3] at hslice
        rw [hnum3, hslice]
      · have hnumB2 : num = PAGE_SIZE - pos % PAGE_SIZE := by
          rcases hnumB with h | h
          · omega
          · exact h
        have hj' : (j + 1) * PAGE_SIZE + (pos + num) % PAGE_SIZE = (pos + num) - base := by
          simp only [PAGE_SIZE] at hj hnumB2 hmlt ⊢
          omega
        rw [ih (pos + num) (j + 1) _ _ _ (by omega) (by omega) hj' hnr]
        dsimp only [putPage]
        have hsplit := list_range_map_add num (stop - (pos + num))
          (fun k => st.cache ((pos - base) + k))
        have hrange : stop - pos = num + (stop - (pos + num)) := by omega
        rw [hrange, hsplit, hslice]
        simp only [List.append_assoc]
        congr 2
        apply List.map_congr_left
        intro t _
        congr 1
        omega
    · rw [read2CopyLoop_exit stop _ _ st pos j acc w (by omega)]
      have : stop - pos = 0 := by omega
      simp [this]

/-! ## The read wrapper -/

theorem read2Grab_lower (nodec : Bool) (crypt : CryptStat) (dec : Nat → Nat)
    (st : St) (idx : Nat) :
    (read2Grab nodec crypt dec st idx).lower = st.lower := by
  by_cases hn : nodec <;>
    simp [read2Grab, hn, readpage, grab_cache_page_lower]

theorem read2Grab_isize (nodec : Bool) (crypt : CryptStat) (dec : Nat → Nat)
    (st : St) (idx : Nat) :
    (read2Grab nodec crypt dec st idx).isize = st.isize := by
  by_cases hn : nodec <;>
    simp [read2Grab, hn, readpage, grab_cache_page_isize]

theorem read2GrabFoldl_lower (nodec : Bool) (crypt : CryptStat) (dec : Nat → Nat) :
    ∀ (l : List Nat) (st : St),
      (l.foldl (fun s j => read2Grab nodec crypt dec s j) st).lower = st.lower := by
  intro l
  induction l with
  | nil => intro st; rfl
  | cons a l ihl =>
    intro st
    rw [List.foldl_cons, ihl, read2Grab_lower]

theorem read2GrabFoldl_isize (nodec : Bool) (crypt : CryptStat) (dec : Nat → Nat) :
    ∀ (l : List Nat) (st : St),
      (l.foldl (fun s j => read2Grab nodec crypt dec s j) st).isize = st.isize := by
  intro l
  induction l with
  | nil => intro st; rfl
  | cons a l ihl =>
    intro st
    rw [List.foldl_cons, ihl, read2Grab_isize]

/-- Unfolding of `ecryptfs_read2` in the decrypting case below end of file:
the call grabs pages `0 .. nrPages-1`, decrypts the batch and runs the
copy-out loop anchored at the true offset. -/
theorem ecryptfs_read2_eq_enc (crypt : CryptStat) (dec : Nat → Nat) (st : St)
    (offset size0 : Nat) (henc : crypt.encrypted = true)
    (hview : crypt.viewAsEncrypted = false) (hoff : offset < st.isize) :
    ecryptfs_read2 crypt dec st offset size0 =
      read2CopyLoop (offset + (if size0 > st.isize then st.isize else size0))
        (List.range
          (((if size0 > st.isize then st.isize else size0) + PAGE_SIZE - 1) / PAGE_SIZE))
        (if size0 > st.isize then st.isize else size0)
        (decrypt_pages dec
          ((List.range
              (((if size0 > st.isize then st.isize else size0) + PAGE_SIZE - 1) /
                PAGE_SIZE)).foldl
            (fun s j => read2Grab false crypt dec s j) st)
          (((if size0 > st.isize then st.isize else size0) + PAGE_SIZE - 1) / PAGE_SIZE))
        offset 0 [] 0 := by
  simp only [ecryptfs_read2, henc, hview, Bool.not_true, Bool.or_false, Bool.false_eq_true,
    if_false]
  rw [if_neg (by omega)]

/-- The buffer an encrypted-mode read returns: for every in-file offset, the
bytes are drawn from cache addresses `offset % PAGE_SIZE + k` — pages
counted from the start of the call — decrypted from the lower file, provided
every copy step stays inside the decrypted batch. -/
theorem ecryptfs_read2_buffer_enc (crypt : CryptStat) (dec : Nat → Nat) (st : St)
    (offset size0 : Nat) (henc : crypt.encrypted = true)
    (hview : crypt.viewAsEncrypted = false) (hoff : offset < st.isize)
    (hin : offset % PAGE_SIZE + (if size0 > st.isize then st.isize else size0) ≤
      (((if size0 > st.isize then st.isize else size0) + PAGE_SIZE - 1) / PAGE_SIZE) *
        PAGE_SIZE) :
    (ecryptfs_read2 crypt dec st offset size0).2.1 =
      (List.range (if size0 > st.isize then st.isize else size0)).map
        fun k => dec (st.lower (offset % PAGE_SIZE + k)) := by
  rw [ecryptfs_read2_eq_enc crypt dec st offset size0 henc hview hoff]
  set size := if size0 > st.isize then st.isize else size0 with hsz
  set nr := (size + PAGE_SIZE - 1) / PAGE_SIZE with hnr
  have hdm := pos_page_decomp offset
  have hcont := read2CopyLoop_content (offset + size) nr
    ((offset / PAGE_SIZE) * PAGE_SIZE) size offset 0
    (decrypt_pages dec
      ((List.range nr).foldl (fun s j => read2Grab false crypt dec s j) st) nr)
    [] 0 (by omega) (by omega) (by simpa using by omega) (by omega)
  rw [hcont]
  simp only [List.nil_append]
  have hstop : offset + size - offset = size := by omega
  rw [hstop]
  apply List.map_congr_left
  intro k hk
  rw [List.mem_range] at hk
  have haddr : offset - (offset / PAGE_SIZE) * PAGE_SIZE + k = offset % PAGE_SIZE + k := by
    omega
  rw [haddr, decrypt_pages_cache, if_pos (by omega),
    read2GrabFoldl_lower false crypt dec (List.range nr) st]

/-- The count an `ecryptfs_read2` call returns for an in-file offset:
the requested length clamped against the whole file size (not against the
bytes remaining to end of file), together with the matching buffer length. -/
theorem ecryptfs_read2_written (crypt : CryptStat) (dec : Nat → Nat) (st : St)
    (offset size0 : Nat) (hoff : offset < st.isize) :
    (ecryptfs_read2 crypt dec st offset size0).2.2 =
      (if size0 > st.isize then st.isize else size0) ∧
    (ecryptfs_read2 crypt dec st offset size0).2.1.length =
      (if size0 > st.isize then st.isize else size0) := by
  simp only [ecryptfs_read2]
  rw [if_neg (by omega)]
  set size := if size0 > st.isize then st.isize else size0 with hsz
  set nr := (size + PAGE_SIZE - 1) / PAGE_SIZE with hnr
  obtain ⟨h1, h2⟩ := read2CopyLoop_count (offset + size) (List.range nr) size offset 0
    (if (!crypt.encrypted || crypt.viewAsEncrypted) = true then
      (List.range nr).foldl
        (fun s j => read2Grab (!crypt.encrypted || crypt.viewAsEncrypted) crypt dec s j) st
    else
      decrypt_pages dec
        ((List.range nr).foldl
          (fun s j => read2Grab (!crypt.encrypted || crypt.viewAsEncrypted) crypt dec s j) st)
        nr)
    [] 0 (by omega)
  constructor
  · rw [h1]
    omega
  · rw [h2]
    simp

/-! ## The sequential write wrapper -/

theorem writeLoopSeq_exit (crypt : CryptStat) (enc dec data : Nat → Nat)
    (sg : Nat → Bool) (offset size fuel iter pos dataOff : Nat) (st : St)
    (h : offset + size ≤ pos) :
    writeLoopSeq crypt enc dec sg data offset size fuel iter pos dataOff st = (st, 0, pos) := by
  cases fuel <;> simp [writeLoopSeq, Nat.not_lt.2 h]

/-- If the cancellation signal is raised at the start of an iteration whose
range is unfinished, the sequential write loop returns immediately with
`-EINTR` and the state exactly as accumulated so far — pages committed by
earlier iterations stay committed, nothing is rolled back. -/
theorem writeLoopSeq_signal_abort (crypt : CryptStat) (enc dec data : Nat → Nat)
    (signal : Nat → Bool) (offset size fuel iter pos dataOff : Nat) (st : St)
    (hsig : signal iter = true) (hlt : pos < offset + size) (hfuel : 0 < fuel) :
    writeLoopSeq crypt enc dec signal data offset size fuel iter pos dataOff st =
      (st, EINTR_RC, pos) := by
  cases fuel with
  | zero => omega
  | succ n => simp [writeLoopSeq, hlt, hsig]

/-- State of the file after a successful sequential write with no
cancellation: the size grows to `offset + size` exactly when the write
extends the file; the hole `[start, offset)` (with `start` the walk's
starting position `min(offset, oldSize)`) is zero in the cache and, for an
encrypted file, decrypts to zero from the lower file; the written range
holds the request bytes and round-trips; pages below the starting page are
untouched. -/
theorem ecryptfs_write_state (crypt : CryptStat) (enc dec data : Nat → Nat) (mdRc : Int)
    (st : St) (offset size : Nat) (hinv : ∀ b, dec (enc b) = b) :
    (ecryptfs_write crypt enc dec noSignal mdRc st data offset size).1.isize =
      (if offset + size > st.isize then offset + size else st.isize) ∧
    (∀ p, (if offset > st.isize then st.isize else offset) ≤ p → p < offset →
      (ecryptfs_write crypt enc dec noSignal mdRc st data offset size).1.cache p = 0 ∧
        (crypt.encrypted = true →
          dec ((ecryptfs_write crypt enc dec noSignal mdRc st data offset size).1.lower p) =
            0)) ∧
    (∀ p, offset ≤ p → p < offset + size →
      (ecryptfs_write crypt enc dec noSignal mdRc st data offset size).1.cache p =
          data (p - offset) ∧
        (crypt.encrypted = true →
          dec ((ecryptfs_write crypt enc dec noSignal mdRc st data offset size).1.lower p) =
            data (p - offset))) ∧
    (∀ p, p < ((if offset > st.isize then st.isize else offset) / PAGE_SIZE) * PAGE_SIZE →
      (ecryptfs_write crypt enc dec noSignal mdRc st data offset size).1.cache p =
          st.cache p ∧
        (ecryptfs_write crypt enc dec noSignal mdRc st data offset size).1.lower p =
          st.lower p) := by
  obtain ⟨hrc, hposF, hisz, hgapO, hdataO, hframeO⟩ :=
    writeLoopSeq_master crypt enc dec data offset size
      (if offset > st.isize then st.isize else offset) hinv
      (by split_ifs <;> omega)
      (offset + size) 0 (if offset > st.isize then st.isize else offset) 0 st
      (by omega) (by split_ifs <;> omega) (by split_ifs <;> omega)
      (by intro p h1 h2 h3; omega)
      (by intro p h1 h2; split_ifs at h2 <;> omega)
      (by intro p h1 h2; omega)
  have hwr :
      ecryptfs_write crypt enc dec noSignal mdRc st data offset size =
        (if (writeLoopSeq crypt enc dec noSignal data offset size (offset + size) 0
              (if offset > st.isize then st.isize else offset) 0 st).2.2 > st.isize then
          ({ (writeLoopSeq crypt enc dec noSignal data offset size (offset + size) 0
              (if offset > st.isize then st.isize else offset) 0 st).1 with
            isize := (writeLoopSeq crypt enc dec noSignal data offset size (offset + size) 0
              (if offset > st.isize then st.isize else offset) 0 st).2.2 },
          if crypt.encrypted then
            (if mdRc ≠ 0 then
              (if (writeLoopSeq crypt enc dec noSignal data offset size (offset + size) 0
                  (if offset > st.isize then st.isize else offset) 0 st).2.1 = 0 then mdRc
                else (writeLoopSeq crypt enc dec noSignal data offset size (offset + size) 0
                  (if offset > st.isize then st.isize else offset) 0 st).2.1)
              else (writeLoopSeq crypt enc dec noSignal data offset size (offset + size) 0
                (if offset > st.isize then st.isize else offset) 0 st).2.1)
          else (writeLoopSeq crypt enc dec noSignal data offset size (offset + size) 0
            (if offset > st.isize then st.isize else offset) 0 st).2.1)
        else
          ((writeLoopSeq crypt enc dec noSignal data offset size (offset + size) 0
              (if offset > st.isize then st.isize else offset) 0 st).1,
            (writeLoopSeq crypt enc dec noSignal data offset size (offset + size) 0
              (if offset > st.isize then st.isize else offset) 0 st).2.1)) := by
    simp only [ecryptfs_write]
    by_cases hc : crypt.encrypted <;> simp [hc]
  rw [hwr, hposF]
  by_cases hext : offset + size > st.isize
  · rw [if_pos hext, if_pos hext]
    by_cases hc : crypt.encrypted <;>
      exact ⟨rfl, hgapO, hdataO, hframeO⟩
  · rw [if_neg hext, if_neg hext]
    exact ⟨hisz, hgapO, hdataO, hframeO⟩

/-! ## The batched write loop and wrapper -/

theorem writeLoopBat_exit (crypt : CryptStat) (data : Nat → Nat)
    (offset size fuel pos dataOff : Nat) (st : St) (pgs : List Nat)
    (h : offset + size ≤ pos) :
    writeLoopBat crypt data offset size fuel pos dataOff st pgs = (st, pgs, pos) := by
  cases fuel <;> simp [writeLoopBat, Nat.not_lt.2 h]

theorem writeLoopBat_step (crypt : CryptStat) (data : Nat → Nat)
    (offset size fuel pos dataOff : Nat) (st : St) (pgs : List Nat)
    (h : pos < offset + size) :
    writeLoopBat crypt data offset size (fuel + 1) pos dataOff st pgs =
      writeLoopBat crypt data offset size fuel
        (writeStepBat crypt data offset size pos dataOff st pgs).2.2.1
        (writeStepBat crypt data offset size pos dataOff st pgs).2.2.2
        (writeStepBat crypt data offset size pos dataOff st pgs).1
        (writeStepBat crypt data offset size pos dataOff st pgs).2.1 := by
  simp [writeLoopBat, h]

theorem writeLoopBat_isize (crypt : CryptStat) (data : Nat → Nat) (offset size : Nat) :
    ∀ fuel pos dataOff st pgs,
      (writeLoopBat crypt data offset size fuel pos dataOff st pgs).1.isize = st.isize := by
  intro fuel
  induction fuel with
  | zero => intro pos dataOff st pgs; rfl
  | succ fuel ih =>
    intro pos dataOff st pgs
    by_cases hlt : pos < offset + size
    · rw [writeLoopBat_step crypt data offset size fuel pos dataOff st pgs hlt, ih,
        writeStepBat_isize]
    · rw [writeLoopBat_exit crypt data offset size _ pos dataOff st pgs (by omega)]

theorem encryptPageFoldl_refs (enc : Nat → Nat) :
    ∀ (l : List Nat) (st : St),
      ((l.foldl (fun s idx => encrypt_page enc s idx) st).refs = st.refs ∧
        (l.foldl (fun s idx => encrypt_page enc s idx) st).locked = st.locked ∧
        (l.foldl (fun s idx => encrypt_page enc s idx) st).isize = st.isize) := by
  intro l
  induction l with
  | nil => intro st; exact ⟨rfl, rfl, rfl⟩
  | cons a l ihl =>
    intro st
    rw [List.foldl_cons]
    obtain ⟨h1, h2, h3⟩ := ihl (encrypt_page enc st a)
    exact ⟨h1, h2, h3⟩

theorem encrypt_pages2_refs (enc : Nat → Nat) (rcEnc : Int) (st : St) (pgs : List Nat)
    (n : Nat) :
    (encrypt_pages2 enc rcEnc st pgs n).refs = st.refs ∧
      (encrypt_pages2 enc rcEnc st pgs n).locked = st.locked ∧
      (encrypt_pages2 enc rcEnc st pgs n).isize = st.isize := by
  simp only [encrypt_pages2]
  split
  · exact encryptPageFoldl_refs enc (pgs.take n) st
  · exact ⟨rfl, rfl, rfl⟩

theorem putPageFoldl_refs :
    ∀ (l : List Nat) (st : St) (j : Nat),
      (l.foldl putPage st).refs j = st.refs j - l.count j := by
  intro l
  induction l with
  | nil => intro st j; simp
  | cons a l ihl =>
    intro st j
    rw [List.foldl_cons, ihl]
    simp only [putPage, List.count_cons, beq_iff_eq]
    by_cases hj : j = a
    · subst hj
      simp only [eq_self_iff_true, ite_true]
      omega
    · rw [if_neg hj, if_neg fun h => hj h.symm]
      omega

theorem putPageFoldl_locked :
    ∀ (l : List Nat) (st : St), (l.foldl putPage st).locked = st.locked := by
  intro l
  induction l with
  | nil => intro st; rfl
  | cons a l ihl =>
    intro st
    rw [List.foldl_cons, ihl]
    rfl

theorem putPageFoldl_isize :
    ∀ (l : List Nat) (st : St), (l.foldl putPage st).isize = st.isize := by
  intro l
  induction l with
  | nil => intro st; rfl
  | cons a l ihl =>
    intro st
    rw [List.foldl_cons, ihl]
    rfl

/-- For an encrypted batched write walking a page-aligned range at or after
`offset`: the batch accumulated by the loop is exactly the consecutive page
indices of the walked range, every page ends the loop unlocked, and each
batch page holds one extra reference. -/
theorem writeLoopBat_aligned (crypt : CryptStat) (data : Nat → Nat) (offset size : Nat)
    (henc : crypt.encrypted = true) :
    ∀ fuel pos dataOff st pgs,
      (offset + size) - pos ≤ fuel →
      pos ≤ offset + size →
      offset ≤ pos →
      pos % PAGE_SIZE = 0 →
      (∀ j, st.locked j = false) →
      (writeLoopBat crypt data offset size fuel pos dataOff st pgs).2.1 =
        pgs ++ List.range' (pos / PAGE_SIZE)
          (((offset + size) - pos + PAGE_SIZE - 1) / PAGE_SIZE) ∧
      (∀ j, (writeLoopBat crypt data offset size fuel pos dataOff st pgs).1.locked j = false) ∧
      (∀ j, (writeLoopBat crypt data offset size fuel pos dataOff st pgs).1.refs j =
        st.refs j + (List.range' (pos / PAGE_SIZE)
          (((offset + size) - pos + PAGE_SIZE - 1) / PAGE_SIZE)).count j) ∧
      (writeLoopBat crypt data offset size fuel pos dataOff st pgs).1.isize = st.isize := by
  intro fuel
  induction fuel with
  | zero =>
    intro pos dataOff st pgs hf hle hop ha hl
    have hn0 : ((offset + size) - pos + PAGE_SIZE - 1) / PAGE_SIZE = 0 := by
      simp only [PAGE_SIZE] at *
      omega
    rw [hn0]
    refine ⟨by simp [writeLoopBat], fun j => hl j, fun j => by simp [writeLoopBat],
      by simp [writeLoopBat]⟩
  | succ fuel ih =>
    intro pos dataOff st pgs hf hle hop ha hl
    have hps : 0 < PAGE_SIZE := PAGE_SIZE_pos
    by_cases hlt : pos < offset + size
    · rw [writeLoopBat_step crypt data offset size fuel pos dataOff st pgs hlt]
      rw [writeStepBat_pos, writeStepBat_dataOff, writeStepBat_pgs_enc _ _ _ _ _ _ _ _ henc]
      by_cases hfull : pos + PAGE_SIZE ≤ offset + size
      · have hnum : stepBytes offset size pos = PAGE_SIZE :=
          stepBytes_full_of_aligned offset size pos ha hop hfull
        rw [hnum]
        have ha' : (pos + PAGE_SIZE) % PAGE_SIZE = 0 := by
          simp only [PAGE_SIZE] at *
          omega
        have hl' : ∀ j,
            (writeStepBat crypt data offset size pos dataOff st pgs).1.locked j = false := by
          intro j
          rw [writeStepBat_locked_enc _ _ _ _ _ _ _ _ henc]
          split_ifs <;> simp [hl]
        obtain ⟨ih1, ih2, ih3, ih4⟩ := ih (pos + PAGE_SIZE) _ _ _
          (by omega) (by omega) (by omega) ha' hl'
        have hdiv : (pos + PAGE_SIZE) / PAGE_SIZE = pos / PAGE_SIZE + 1 := by
          simp only [PAGE_SIZE] at *
          omega
        have hcnt : ((offset + size) - pos + PAGE_SIZE - 1) / PAGE_SIZE =
            ((offset + size) - (pos + PAGE_SIZE) + PAGE_SIZE - 1) / PAGE_SIZE + 1 := by
          simp only [PAGE_SIZE] at *
          omega
        have hrange : List.range' (pos / PAGE_SIZE)
            (((offset + size) - pos + PAGE_SIZE - 1) / PAGE_SIZE) =
            pos / PAGE_SIZE :: List.range' (pos / PAGE_SIZE + 1)
              (((offset + size) - (pos + PAGE_SIZE) + PAGE_SIZE - 1) / PAGE_SIZE) := by
          rw [hcnt, List.range'_succ _ _ 1]
        refine ⟨?_, ih2, ?_, ?_⟩
        · rw [ih1, hdiv, hrange]
          simp
        · intro j
          rw [ih3 j, writeStepBat_refs_enc _ _ _ _ _ _ _ _ henc, hdiv, hrange,
            List.count_cons]
          simp only [beq_iff_eq]
          by_cases hj : j = pos / PAGE_SIZE
          · subst hj
            simp only [eq_self_iff_true, ite_true]
            omega
          · rw [if_neg hj, if_neg fun h => hj h.symm]
            omega
        · rw [ih4, writeStepBat_isize]
      · have hnum : stepBytes offset size pos = (offset + size) - pos :=
          stepBytes_last_of_aligned offset size pos ha hop (by omega)
        rw [hnum]
        rw [writeLoopBat_exit crypt data offset size fuel _ _ _ _ (by omega)]
        have hn1 : ((offset + size) - pos + PAGE_SIZE - 1) / PAGE_SIZE = 1 := by
          simp only [PAGE_SIZE] at *
          omega
        have hrange : List.range' (pos / PAGE_SIZE)
            (((offset + size) - pos + PAGE_SIZE - 1) / PAGE_SIZE) = [pos / PAGE_SIZE] := by
          rw [hn1]
          simp
        rw [hrange]
        refine ⟨by simp [writeStepBat_pgs_enc _ _ _ _ _ _ _ _ henc], ?_, ?_, ?_⟩
        · intro j
          rw [writeStepBat_locked_enc _ _ _ _ _ _ _ _ henc]
          split_ifs <;> simp [hl]
        · intro j
          rw [writeStepBat_refs_enc _ _ _ _ _ _ _ _ henc]
          rw [List.count_cons]
          simp only [beq_iff_eq, List.count_nil]
          by_cases hj : j = pos / PAGE_SIZE
          · subst hj
            simp only [eq_self_iff_true, ite_true]
          · rw [if_neg hj, if_neg fun h => hj h.symm]
            omega
        · rw [writeStepBat_isize]
    · have hn0 : ((offset + size) - pos + PAGE_SIZE - 1) / PAGE_SIZE = 0 := by
        simp only [PAGE_SIZE] at *
        omega
      rw [writeLoopBat_exit crypt data offset size _ pos dataOff st pgs (by omega), hn0]
      refine ⟨by simp, fun j => hl j, fun j => by simp, rfl⟩

/-- The batched write sets the in-memory size to `offset + size` whenever
the request extends the file, whatever values the deferred group encrypt
and the metadata write report. -/
theorem ecryptfs_write2_isize (crypt : CryptStat) (enc : Nat → Nat) (rcEnc mdRc : Int)
    (signal : Nat → Bool) (st : St) (data : Nat → Nat) (offset size : Nat)
    (hext : st.isize < offset + size) :
    (ecryptfs_write2 crypt enc rcEnc mdRc signal st data offset size).1.isize =
      offset + size := by
  simp only [ecryptfs_write2]
  rw [if_pos (by omega)]
  by_cases hc : crypt.encrypted <;> simp [hc]

/-- The shape of a batched encrypted write whose walk is page-aligned and
starts at `offset` (no hole): every page ends unlocked, every batch page is
released so the per-page reference counts are restored, and the returned
code is the group-encrypt status — unless the write extends the file, in
which case the metadata-write status overwrites it. -/
theorem ecryptfs_write2_batch (crypt : CryptStat) (enc : Nat → Nat) (rcEnc mdRc : Int)
    (signal : Nat → Bool) (st : St) (data : Nat → Nat) (offset size : Nat)
    (henc : crypt.encrypted = true) (ha : offset % PAGE_SIZE = 0)
    (hos : offset ≤ st.isize) (hlock : ∀ j, st.locked j = false) :
    (∀ j, (ecryptfs_write2 crypt enc rcEnc mdRc signal st data offset size).1.locked j =
      false) ∧
    (∀ j, (ecryptfs_write2 crypt enc rcEnc mdRc signal st data offset size).1.refs j =
      st.refs j) ∧
    (ecryptfs_write2 crypt enc rcEnc mdRc signal st data offset size).2 =
      (if offset + size > st.isize then mdRc else rcEnc) := by
  have hpos0 : (if offset > st.isize then st.isize else offset) = offset := by
    rw [if_neg (by omega)]
  obtain ⟨hpgs, hlocked, hrefs, hisz⟩ :=
    writeLoopBat_aligned crypt data offset size henc (offset + size) offset 0 st []
      (by omega) (by omega) (by omega) ha hlock
  have hnrpgs : size / PAGE_SIZE + (if size % PAGE_SIZE ≠ 0 then 1 else 0) =
      ((offset + size) - offset + PAGE_SIZE - 1) / PAGE_SIZE := by
    simp only [PAGE_SIZE]
    split_ifs <;> omega
  have htake :
      ((writeLoopBat crypt data offset size (offset + size) offset 0 st []).2.1.take
        (size / PAGE_SIZE + (if size % PAGE_SIZE ≠ 0 then 1 else 0))) =
      (writeLoopBat crypt data offset size (offset + size) offset 0 st []).2.1 := by
    apply List.take_of_length_le
    rw [hpgs, hnrpgs]
    simp
  have hcore : ∀ j,
      (((writeLoopBat crypt data offset size (offset + size) offset 0 st []).2.1.take
          (size / PAGE_SIZE + (if size % PAGE_SIZE ≠ 0 then 1 else 0))).foldl putPage
        (encrypt_pages2 enc rcEnc
          (writeLoopBat crypt data offset size (offset + size) offset 0 st []).1
          (writeLoopBat crypt data offset size (offset + size) offset 0 st []).2.1
          (size / PAGE_SIZE + (if size % PAGE_SIZE ≠ 0 then 1 else 0)))).refs j =
        st.refs j ∧
      (((writeLoopBat crypt data offset size (offset + size) offset 0 st []).2.1.take
          (size / PAGE_SIZE + (if size % PAGE_SIZE ≠ 0 then 1 else 0))).foldl putPage
        (encrypt_pages2 enc rcEnc
          (writeLoopBat crypt data offset size (offset + size) offset 0 st []).1
          (writeLoopBat crypt data offset size (offset + size) offset 0 st []).2.1
          (size / PAGE_SIZE + (if size % PAGE_SIZE ≠ 0 then 1 else 0)))).locked j =
        false := by
    intro j
    obtain ⟨he1, he2, he3⟩ := encrypt_pages2_refs enc rcEnc
      (writeLoopBat crypt data offset size (offset + size) offset 0 st []).1
      (writeLoopBat crypt data offset size (offset + size) offset 0 st []).2.1
      (size / PAGE_SIZE + (if size % PAGE_SIZE ≠ 0 then 1 else 0))
    constructor
    · rw [putPageFoldl_refs, he1, htake, hpgs, hrefs]
      simp only [List.nil_append]
      omega
    · rw [putPageFoldl_locked, he2]
      exact hlocked j
  simp only [ecryptfs_write2, henc, if_true, hpos0]
  by_cases hext : offset + size > st.isize
  · rw [if_pos (by omega)]
    simp only [henc, if_true]
    refine ⟨fun j => (hcore j).2, fun j => (hcore j).1, ?_⟩
    rw [if_pos hext]
  · rw [if_neg (by omega)]
    refine ⟨fun j => (hcore j).2, fun j => (hcore j).1, ?_⟩
    rw [if_neg hext]

/-- The wrapper's post-loop work (size update, metadata status juggling)
never touches the lower file: the final lower file is the loop's. -/
theorem ecryptfs_write_lower_proj (crypt : CryptStat) (enc dec data : Nat → Nat)
    (sg : Nat → Bool) (mdRc : Int) (st : St) (offset size : Nat) :
    (ecryptfs_write crypt enc dec sg mdRc st data offset size).1.lower =
      (writeLoopSeq crypt enc dec sg data offset size (offset + size) 0
        (if offset > st.isize then st.isize else offset) 0 st).1.lower := by
  simp only [ecryptfs_write]
  by_cases h : (writeLoopSeq crypt enc dec sg data offset size (offset + size) 0
      (if offset > st.isize then st.isize else offset) 0 st).2.2 > st.isize <;>
    by_cases hc : crypt.encrypted <;> simp [h, hc]

/-! ## Claims -/

/-- Claim C2: for a sequential write at an offset beyond the current logical
size (no cancellation raised), the walk effectively begins at the old size:
the whole gap `[oldSize, offset)` is zero-filled (zero in the page cache,
and — on an encrypted file — decrypting the lower file there gives zero, so
the gap reads back as zero), the resulting logical size is `offset + size`,
and pages below the old size's page are untouched. -/
theorem claim2_theorem (crypt : CryptStat) (enc dec data : Nat → Nat) (mdRc : Int)
    (st : St) (offset size : Nat) (hinv : ∀ b, dec (enc b) = b)
    (hoff : st.isize < offset) :
    (ecryptfs_write crypt enc dec noSignal mdRc st data offset size).1.isize =
      offset + size ∧
    (∀ p, st.isize ≤ p → p < offset →
      (ecryptfs_write crypt enc dec noSignal mdRc st data offset size).1.cache p = 0 ∧
        (crypt.encrypted = true →
          dec ((ecryptfs_write crypt enc dec noSignal mdRc st data offset size).1.lower p) =
            0)) ∧
    (∀ p, p < (st.isize / PAGE_SIZE) * PAGE_SIZE →
      (ecryptfs_write crypt enc dec noSignal mdRc st data offset size).1.cache p =
          st.cache p ∧
        (ecryptfs_write crypt enc dec noSignal mdRc st data offset size).1.lower p =
          st.lower p) := by
  obtain ⟨hisz, hgap, hdata, hframe⟩ :=
    ecryptfs_write_state crypt enc dec data mdRc st offset size hinv
  have hite : (if offset > st.isize then st.isize else offset) = st.isize := if_pos hoff
  rw [hite] at hgap hframe
  refine ⟨?_, hgap, hframe⟩
  rw [hisz, if_pos (by omega)]

/-- Claim C2 witness: writing one byte at offset 5000 on an empty encrypted
file yields size 5001, and byte 4500 of the gap is zero in the cache and in
the decrypted lower file. -/
theorem claim2_witness :
    (ecryptfs_write cryptEnc id id noSignal 0 emptySt (fun _ => 3) 5000 1).1.isize = 5001 ∧
    (ecryptfs_write cryptEnc id id noSignal 0 emptySt (fun _ => 3) 5000 1).1.cache 4500 =
      0 ∧
    id ((ecryptfs_write cryptEnc id id noSignal 0 emptySt (fun _ => 3) 5000 1).1.lower
      4500) = 0 := by
  have h := claim2_theorem cryptEnc id id (fun _ => 3) 0 emptySt 5000 1
    (fun b => rfl) (by decide)
  exact ⟨h.1, (h.2.1 4500 (by decide) (by decide)).1,
    (h.2.1 4500 (by decide) (by decide)).2 rfl⟩

/-- Claim C4: the batched write sets the in-memory logical size to
`offset + size` after the walk whenever the request extends the file, for
every possible status `rcEnc` of the deferred group encrypt — success or
failure alike. -/
theorem claim4_theorem (crypt : CryptStat) (enc : Nat → Nat) (rcEnc mdRc : Int)
    (signal : Nat → Bool) (st : St) (data : Nat → Nat) (offset size : Nat)
    (henc : crypt.encrypted = true) (hext : st.isize < offset + size) :
    (ecryptfs_write2 crypt enc rcEnc mdRc signal st data offset size).1.isize =
      offset + size :=
  ecryptfs_write2_isize crypt enc rcEnc mdRc signal st data offset size hext

/-- Claim C4 witness: a batched encrypted write of 5 bytes onto an empty
file whose group encrypt reports failure (-5) still ends with size 5. -/
theorem claim4_witness :
    (ecryptfs_write2 cryptEnc id (-5) 0 noSignal emptySt (fun _ => 2) 0 5).1.isize =
      0 + 5 :=
  claim4_theorem cryptEnc id (-5) 0 noSignal emptySt (fun _ => 2) 0 5 rfl (by decide)

/-- Claim C5 counterexample: an extending batched encrypted write whose
deferred group encrypt fails with -5 reports 0 (the metadata-write status)
instead of the crypto failure, refuting "that crypto failure is the error
reported by the write call" as universally stated. -/
theorem claim5_counterexample :
    (ecryptfs_write2 cryptEnc id (-5) 0 noSignal emptySt (fun _ => 1) 0 5).2 = 0 ∧
    ((-5 : Int) ≠ 0) := by
  constructor
  · decide
  · decide

/-- Claim C5 (amended): on a batched encrypted write whose walk is
page-aligned with no hole, every page accumulated in the batch is unlocked
and released (reference counts restored) even when the group encrypt fails;
the crypto failure is the reported error only when the write does not
extend the logical size — when it extends, the size-metadata write's status
replaces it. -/
theorem claim5_theorem (crypt : CryptStat) (enc : Nat → Nat) (rcEnc mdRc : Int)
    (signal : Nat → Bool) (st : St) (data : Nat → Nat) (offset size : Nat)
    (henc : crypt.encrypted = true) (hfail : rcEnc ≠ 0)
    (ha : offset % PAGE_SIZE = 0) (hos : offset ≤ st.isize)
    (hlock : ∀ j, st.locked j = false) :
    (∀ j, (ecryptfs_write2 crypt enc rcEnc mdRc signal st data offset size).1.locked j =
      false) ∧
    (∀ j, (ecryptfs_write2 crypt enc rcEnc mdRc signal st data offset size).1.refs j =
      st.refs j) ∧
    (ecryptfs_write2 crypt enc rcEnc mdRc signal st data offset size).2 =
      (if offset + size > st.isize then mdRc else rcEnc) :=
  ecryptfs_write2_batch crypt enc rcEnc mdRc signal st data offset size henc ha hos hlock

/-- Claim C5 witness: a non-extending one-byte batched encrypted write with
failing group encrypt (-5) leaves page 0 unlocked with its reference count
restored and reports -5. -/
theorem claim5_witness :
    (ecryptfs_write2 cryptEnc id (-5) 0 noSignal { emptySt with isize := 2 }
      (fun _ => 1) 0 1).1.locked 0 = false ∧
    (ecryptfs_write2 cryptEnc id (-5) 0 noSignal { emptySt with isize := 2 }
      (fun _ => 1) 0 1).1.refs 0 = 0 ∧
    (ecryptfs_write2 cryptEnc id (-5) 0 noSignal { emptySt with isize := 2 }
      (fun _ => 1) 0 1).2 = -5 := by
  have h := claim5_theorem cryptEnc id (-5) 0 noSignal { emptySt with isize := 2 }
    (fun _ => 1) 0 1 rfl (by decide) (by decide) (by decide) (fun j => rfl)
  refine ⟨h.1 0, h.2.1 0, ?_⟩
  rw [h.2.2]
  decide

/-- Claim C7 counterexample: with the external cancellation signal raised
from the very start, the batched write still runs to completion — it
returns 0 and sets the size to 5 instead of aborting with a cancellation
error, refuting "every write operation — both variants — checks the
cancellation signal". -/
theorem claim7_counterexample :
    (ecryptfs_write2 cryptEnc id 0 0 sigAlways emptySt (fun _ => 1) 0 5).2 = 0 ∧
    (ecryptfs_write2 cryptEnc id 0 0 sigAlways emptySt (fun _ => 1) 0 5).1.isize = 5 ∧
    (0 : Int) ≠ EINTR_RC := by
  refine ⟨by decide, by decide, by decide⟩

/-- Claim C7 (amended): only the sequential write checks the cancellation
signal, at the start of each loop iteration; when it is raised with work
remaining, the loop aborts immediately with `-EINTR`, returning the state
exactly as accumulated so far — pages committed by earlier iterations stay
committed and nothing is rolled back.  (The batched variant never consults
the signal; see the counterexample.) -/
theorem claim7_theorem (crypt : CryptStat) (enc dec data : Nat → Nat)
    (signal : Nat → Bool) (offset size fuel iter pos dataOff : Nat) (st : St)
    (hsig : signal iter = true) (hlt : pos < offset + size) (hfuel : 0 < fuel) :
    writeLoopSeq crypt enc dec signal data offset size fuel iter pos dataOff st =
      (st, EINTR_RC, pos) := by
  cases fuel with
  | zero => omega
  | succ n => simp [writeLoopSeq, hlt, hsig]

/-- Claim C7 witness: the signal raised at iteration 0 aborts the
sequential loop at once with `-EINTR` and an unchanged state. -/
theorem claim7_witness :
    writeLoopSeq cryptEnc id id sigAlways (fun _ => 1) 0 1 1 0 0 0 emptySt =
      (emptySt, EINTR_RC, 0) :=
  claim7_theorem cryptEnc id id (fun _ => 1) sigAlways 0 1 1 0 0 0 emptySt rfl
    (by decide) (by decide)

/-- Claim C8: the read path's early return at end of file leaks its pages.
On an encrypted file of size 5, `read(offset=5, length=3)` grabs and locks
cache page 0, decrypts it, then hits the `offset >= file_size` early return
(`goto out`), returning 0 with page 0 still locked and still holding the
extra reference — the claim's unlock/release discipline is violated by the
code on this path. -/
theorem claim8_theorem :
    (ecryptfs_read2 cryptEnc id { emptySt with isize := 5 } 5 3).1.locked 0 = true ∧
    (ecryptfs_read2 cryptEnc id { emptySt with isize := 5 } 5 3).1.refs 0 = 1 ∧
    (ecryptfs_read2 cryptEnc id { emptySt with isize := 5 } 5 3).2.2 = 0 := by
  refine ⟨by decide, by decide, by decide⟩

/-- Claim C9 counterexample: a zero-length write at offset 1 on an empty
file is not a no-op — it returns 0 but zero-extends the file to size 1. -/
theorem claim9_counterexample :
    (ecryptfs_write cryptPlain id id noSignal 0 emptySt (fun _ => 1) 1 0).2 = 0 ∧
    (ecryptfs_write cryptPlain id id noSignal 0 emptySt (fun _ => 1) 1 0).1.isize = 1 ∧
    emptySt.isize = 0 := by
  refine ⟨by decide, by decide, by decide⟩

/-- Claim C9 (amended): a write with length 0 at an offset at or below the
current logical size is a complete no-op: the state (contents, size, page
bookkeeping) is unchanged and the call returns 0.  (At an offset beyond the
current size it instead zero-extends the file to `offset`; see the
counterexample.) -/
theorem claim9_theorem (crypt : CryptStat) (enc dec data : Nat → Nat)
    (signal : Nat → Bool) (mdRc : Int) (st : St) (offset : Nat)
    (hoff : offset ≤ st.isize) :
    ecryptfs_write crypt enc dec signal mdRc st data offset 0 = (st, 0) := by
  have hpos0 : (if offset > st.isize then st.isize else offset) = offset :=
    if_neg (by omega)
  have hloop := writeLoopSeq_exit crypt enc dec data signal offset 0 (offset + 0) 0
    offset 0 st (by omega)
  simp only [ecryptfs_write, hpos0, hloop]
  rw [if_neg (by omega)]

/-- Claim C9 witness: a zero-length write at offset 2 on a file of size 3
returns 0 and leaves the state untouched. -/
theorem claim9_witness :
    ecryptfs_write cryptPlain id id noSignal 0 { emptySt with isize := 3 }
      (fun _ => 1) 2 0 = ({ emptySt with isize := 3 }, 0) :=
  claim9_theorem cryptPlain id id (fun _ => 1) noSignal 0 { emptySt with isize := 3 } 2
    (by decide)

/-- Claim C1 counterexample: on an empty encrypted file (identity cipher),
writing the byte 1 at offset 4096 and reading back the same range
`(4096, 1)` returns `[0]`, not the written buffer `[1]` — the read copies
from cache page 0, not from the page holding offset 4096. -/
theorem claim1_counterexample :
    (ecryptfs_read2 cryptEnc id
        (ecryptfs_write cryptEnc id id noSignal 0 emptySt (fun _ => 1) 4096 1).1
        4096 1).2.1 ≠ [1] ∧
    (ecryptfs_read2 cryptEnc id
        (ecryptfs_write cryptEnc id id noSignal 0 emptySt (fun _ => 1) 4096 1).1
        4096 1).2.1 = [0] := by
  refine ⟨by decide, by decide⟩

/-- Claim C1 (amended): write-then-read round-trips on an empty encrypted
file for offset 0 and every length > 0 (and the read reports the full
count); for offsets at or beyond PAGE_SIZE the read sources the wrong
pages — see the counterexample. -/
theorem claim1_theorem (enc dec data : Nat → Nat) (hinv : ∀ b, dec (enc b) = b)
    (mdRc : Int) (st : St) (hempty : st.isize = 0) (size : Nat) (hlen : 0 < size) :
    (ecryptfs_read2 cryptEnc dec
        (ecryptfs_write cryptEnc enc dec noSignal mdRc st data 0 size).1 0 size).2.1 =
      (List.range size).map data ∧
    (ecryptfs_read2 cryptEnc dec
        (ecryptfs_write cryptEnc enc dec noSignal mdRc st data 0 size).1 0 size).2.2 =
      size := by
  obtain ⟨hisz, hgap, hdata, hframe⟩ :=
    ecryptfs_write_state cryptEnc enc dec data mdRc st 0 size hinv
  have hwisz : (ecryptfs_write cryptEnc enc dec noSignal mdRc st data 0 size).1.isize =
      size := by
    rw [hisz, hempty, if_pos (by omega)]
    omega
  have hoffr : 0 < (ecryptfs_write cryptEnc enc dec noSignal mdRc st data 0 size).1.isize := by
    rw [hwisz]
    exact hlen
  have hcl : (if size > (ecryptfs_write cryptEnc enc dec noSignal mdRc st data 0
      size).1.isize then
        (ecryptfs_write cryptEnc enc dec noSignal mdRc st data 0 size).1.isize
      else size) = size := by
    rw [hwisz, if_neg (by omega)]
  constructor
  · rw [ecryptfs_read2_buffer_enc cryptEnc dec _ 0 size rfl rfl hoffr ?_]
    · rw [hcl]
      apply List.map_congr_left
      intro k hk
      rw [List.mem_range] at hk
      have hlow := (hdata k (by omega) (by omega)).2 rfl
      simp only [Nat.zero_mod, Nat.zero_add]
      rw [hlow, Nat.sub_zero]
    · rw [hcl]
      simp only [PAGE_SIZE, Nat.zero_mod]
      omega
  · obtain ⟨hw1, _⟩ := ecryptfs_read2_written cryptEnc dec _ 0 size hoffr
    rw [hw1, hcl]

/-- Claim C1 witness: writing bytes `k+7` for `k < 5` at offset 0 on the
empty file and reading `(0, 5)` back returns exactly those bytes, with
count 5. -/
theorem claim1_witness :
    (ecryptfs_read2 cryptEnc id
        (ecryptfs_write cryptEnc id id noSignal 0 emptySt (fun k => k + 7) 0 5).1
        0 5).2.1 = (List.range 5).map (fun k => k + 7) ∧
    (ecryptfs_read2 cryptEnc id
        (ecryptfs_write cryptEnc id id noSignal 0 emptySt (fun k => k + 7) 0 5).1
        0 5).2.2 = 5 :=
  claim1_theorem id id (fun k => k + 7) (fun b => rfl) 0 emptySt rfl 5 (by decide)

/-- Claim C3: on a decrypting read below end of file whose copy steps all
stay inside the grabbed batch, the returned bytes are drawn from cache
addresses `offset % PAGE_SIZE + k` — i.e. from the batch pages acquired at
cache indices `0 .. nrPages-1`, counted from the start of the call, and not
from the cache page at index `pos / PAGE_SIZE`.  (The source address is
independent of `offset / PAGE_SIZE`.) -/
theorem claim3_theorem (crypt : CryptStat) (dec : Nat → Nat) (st : St)
    (offset size0 : Nat) (henc : crypt.encrypted = true)
    (hview : crypt.viewAsEncrypted = false) (hoff : offset < st.isize)
    (hin : offset % PAGE_SIZE + min size0 st.isize ≤
      ((min size0 st.isize + PAGE_SIZE - 1) / PAGE_SIZE) * PAGE_SIZE) :
    (ecryptfs_read2 crypt dec st offset size0).2.1 =
      (List.range (min size0 st.isize)).map
        fun k => dec (st.lower (offset % PAGE_SIZE + k)) := by
  have hm : (if size0 > st.isize then st.isize else size0) = min size0 st.isize := by
    rw [min_def]
    split_ifs <;> omega
  rw [ecryptfs_read2_buffer_enc crypt dec st offset size0 henc hview hoff
    (by rw [hm]; exact hin)]
  rw [hm]

/-- Claim C3 witness: on a 4098-byte encrypted file, `read(4096, 1)`
returns the decryption of lower byte 0 — the start of the call's page
batch — not of byte 4096. -/
theorem claim3_witness :
    (ecryptfs_read2 cryptEnc id { emptySt with isize := 4098 } 4096 1).2.1 =
      (List.range (min 1 4098)).map
        fun k => id ({ emptySt with isize := 4098 }.lower (4096 % PAGE_SIZE + k)) :=
  claim3_theorem cryptEnc id { emptySt with isize := 4098 } 4096 1 rfl rfl
    (by decide) (by decide)

/-- Claim C10 counterexample: file size 4097, `read(offset=4096, length=2)`.
Every byte at or past end of file holds the marker 7 in this state, the
returned count 2 exceeds the single logical byte before EOF, yet the
returned buffer is `[0, 0]` — no byte from a position at or past end of
file was copied, refuting the claim's final conjunct. -/
theorem claim10_counterexample :
    (ecryptfs_read2 cryptEnc id
        { emptySt with isize := 4097, lower := fun p => if p < 4097 then 0 else 7 }
        4096 2).2.2 = 2 ∧
    (ecryptfs_read2 cryptEnc id
        { emptySt with isize := 4097, lower := fun p => if p < 4097 then 0 else 7 }
        4096 2).2.1 = [0, 0] ∧
    (4096 : Nat) + min 2 4097 > 4097 ∧
    (7 : Nat) ∉ ([0, 0] : List Nat) := by
  refine ⟨by decide, by decide, by decide, by decide⟩

/-- Claim C10 (amended): for every read with `offset < fileSize`, the byte
count returned (and the buffer length) equals `min(length, fileSize)` — the
requested length clamped against the whole file size, not against
`fileSize - offset` — so when `offset > 0` and
`offset + min(length, fileSize) > fileSize` the count exceeds the logical
bytes remaining before end of file.  (The extra bytes come from the
call-start-relative cache addresses, which need not include any position at
or past end of file; see the counterexample.) -/
theorem claim10_theorem (crypt : CryptStat) (dec : Nat → Nat) (st : St)
    (offset size0 : Nat) (hoff : offset < st.isize) :
    (ecryptfs_read2 crypt dec st offset size0).2.2 = min size0 st.isize ∧
    (ecryptfs_read2 crypt dec st offset size0).2.1.length = min size0 st.isize ∧
    (0 < offset → st.isize < offset + min size0 st.isize →
      st.isize - offset < min size0 st.isize) := by
  have hm : (if size0 > st.isize then st.isize else size0) = min size0 st.isize := by
    rw [min_def]
    split_ifs <;> omega
  obtain ⟨h1, h2⟩ := ecryptfs_read2_written crypt dec st offset size0 hoff
  rw [hm] at h1 h2
  exact ⟨h1, h2, by omega⟩

/-- Claim C10 witness: file size 4097, `read(4096, 2)` returns count
`min 2 4097 = 2`, which exceeds the one logical byte remaining before end
of file. -/
theorem claim10_witness :
    (ecryptfs_read2 cryptEnc id { emptySt with isize := 4097 } 4096 2).2.2 =
      min 2 4097 ∧
    (4097 : Nat) - 4096 < min 2 4097 := by
  have h := claim10_theorem cryptEnc id { emptySt with isize := 4097 } 4096 2 (by decide)
  exact ⟨h.1, h.2.2 (by decide) (by decide)⟩

/-- Claim C6 counterexample: a plaintext sequential write of 4097 bytes at
offset 0 onto an empty file whose backend holds 9 everywhere.  Per the
claim, each step persists only its own modified range, so backend byte 4097
(outside both steps' ranges `[0,4096)` and `[4096,4097)`) must keep its old
value 9; the code's second step passes the cumulative `data_offset = 4097`
as the size and overwrites it with 0. -/
theorem claim6_counterexample :
    (ecryptfs_write cryptPlain id id noSignal 0 { emptySt with lower := fun _ => 9 }
        (fun _ => 1) 0 4097).1.lower 4097 = 0 ∧
    ({ emptySt with lower := fun _ => 9 } : St).lower 4097 = 9 := by
  refine ⟨by decide, by decide⟩

/-- Claim C6 (amended): the plaintext step persists the first `data_offset`
bytes of the page counted from the page start (the cumulative bytes copied
so far in the call) at backend offset `pageIndex*PAGE_SIZE + offsetInPage`;
this coincides with "exactly the step's modified byte range" precisely for
a call's sole data step starting at in-page offset 0 — e.g. any page-aligned
non-extending write of at most one page, proved here: the backend receives
exactly the written bytes at `[offset, offset + size)` and nothing else
changes. -/
theorem claim6_theorem (crypt : CryptStat) (enc dec data : Nat → Nat) (mdRc : Int)
    (st : St) (offset size : Nat) (henc : crypt.encrypted = false)
    (ha : offset % PAGE_SIZE = 0) (hos : offset ≤ st.isize)
    (h1 : 0 < size) (h2 : size ≤ PAGE_SIZE) (p : Nat) :
    (ecryptfs_write crypt enc dec noSignal mdRc st data offset size).1.lower p =
      if offset ≤ p ∧ p < offset + size then data (p - offset) else st.lower p := by
  rw [ecryptfs_write_lower_proj, if_neg (by omega)]
  have hsb : stepBytes offset size offset = size := by
    by_cases hfs : size = PAGE_SIZE
    · rw [hfs]
      exact stepBytes_full_of_aligned offset PAGE_SIZE offset ha (Nat.le_refl _)
        (by omega)
    · rw [stepBytes_last_of_aligned offset size offset ha (Nat.le_refl _) (by omega)]
      omega
  have hunf : writeLoopSeq crypt enc dec noSignal data offset size (offset + size) 0
      offset 0 st =
      ((writeStepSeq crypt enc dec data offset size offset 0 st).1, 0, offset + size) := by
    rcases Nat.exists_eq_succ_of_ne_zero (n := offset + size) (by omega) with ⟨f, hofs⟩
    rw [hofs]
    have hone : writeLoopSeq crypt enc dec noSignal data offset size (f + 1) 0
        offset 0 st =
        writeLoopSeq crypt enc dec noSignal data offset size f 1
          (writeStepSeq crypt enc dec data offset size offset 0 st).2.1
          (writeStepSeq crypt enc dec data offset size offset 0 st).2.2
          (writeStepSeq crypt enc dec data offset size offset 0 st).1 := by
      simp [writeLoopSeq, (show offset < offset + size by omega), noSignal]
    rw [hone, writeStepSeq_pos, hsb,
      writeLoopSeq_exit crypt enc dec data noSignal offset size f 1 (offset + size) _ _
        (Nat.le_refl _), ← hofs]
  rw [hunf]
  rw [writeStepSeq_lower_plain crypt enc dec data offset size offset 0 st henc p]
  rw [hsb, if_pos (Nat.le_refl offset)]
  have haligned : (offset / PAGE_SIZE) * PAGE_SIZE = offset := by
    have := pos_page_decomp offset
    omega
  rw [haligned]
  by_cases hp : offset ≤ p ∧ p < offset + (0 + size)
  · rw [if_pos hp, if_pos (by omega)]
    rw [writeStepSeq_cache]
    rw [if_pos ⟨Nat.le_refl offset, by omega, by rw [hsb]; omega⟩]
    congr 1
    omega
  · rw [if_neg hp, if_neg (by omega)]

/-- Claim C6 witness: a plaintext aligned 3-byte write at offset 0 puts the
written byte `data(1) = 2` at backend position 1. -/
theorem claim6_witness :
    (ecryptfs_write cryptPlain id id noSignal 0 emptySt (fun k => k + 1) 0 3).1.lower 1 =
      2 := by
  rw [claim6_theorem cryptPlain id id (fun k => k + 1) 0 emptySt 0 3 rfl (by decide)
    (by decide) (by decide) (by decide) 1]
  decide

end KOCL
